import Mathlib

/-!
# ToDo terminal: a shallow embedding of `src/todo.cpp`

The program keeps a `std::vector<Task>` and a `std::set<std::string>` of task
names, rewrites the file `task_file_db` after every mutation and prints to
`std::cout`.

Modelling conventions.

* A `std::string` is a `List Char` (`Str`); the file and standard output are
  character sequences as well.
* `std::vector<Task>` is `List Task`, `std::set<std::string>` is `Finset Str`.
* Container sizes and loop counters are natural numbers: a task list is assumed
  to hold fewer than `2^31` entries, so that the conversions between `int` and
  `size_t` in the source are exact.  The result of `std::stoi`, where the range
  of `int` matters, is modelled with its range check.
* Reading a vector out of bounds is undefined behaviour in the source; the
  operations that can do so return `Option`, with `none` for that case.
* `std::sort` belongs to the standard library, which fixes only its contract:
  the result is a rearrangement of the input, ordered by `operator<`, and the
  order of equivalent elements is unspecified.  It is a parameter (`StdSort`).
* Standard input is the list of its lines, with a flag telling whether the
  last line ends with a newline; a call of `run` ends in a `RunResult`.
-/

namespace Todo

/-- A `std::string`, as its sequence of characters. -/
abbrev Str := List Char

/-- The constant `UP_TO_LOW`, the distance `'a' - 'A'`. -/
def UP_TO_LOW : Nat := 'a'.toNat - 'A'.toNat

/-- The vector `COMMAND` of command names. -/
def COMMAND : List Str :=
  ["ls".toList, "man".toList, "rm".toList, "sort".toList, "add".toList, "do".toList,
   "undo".toList, "clear".toList, "exit".toList]

/-- The vector `OPTION_COMMAND` of option descriptions. -/
def OPTION_COMMAND : List Str :=
  ["".toList, "".toList, "[id_task, name_task, -d, -r]".toList, "[0, 1]".toList,
   "[name task]".toList, "[id, name_task]".toList, "[id, name_task]".toList, "".toList,
   "".toList]

/-- The vector `DESCRIPTION_COMMAND` of command descriptions. -/
def DESCRIPTION_COMMAND : List Str :=
  ["Print all tasks with [id] name_task (green = done, red = not done) and number of tasks completed and remaining.".toList,
   "Print the tutorial.".toList,
   "Remove a specific task [id / name_task] [-d remove done task] [-r remove all tasks].".toList,
   "Sort the tasks ([0] (default) first undone tasks, [1] done tasks first).".toList,
   "Add a new task with a specified name.".toList,
   "Mark a task with [id / name_task] as done.".toList,
   "Mark a task with [id / name_task] as undone.".toList,
   "Clear the shell.".toList,
   "Exit the program (or you can press CTRL+C).".toList]

/-- The constant `NUMBER_ATTRIBUTE_TASK`. -/
def NUMBER_ATTRIBUTE_TASK : Nat := 2

/-- The class `Task`: a name and a completion flag. -/
structure Task where
  name_task : Str
  is_done : Bool
deriving DecidableEq, Repr

namespace Task

/-- The constructor `Task(name_task)`: the flag keeps its default `false`. -/
def mk1 (name_task : Str) : Task := ⟨name_task, false⟩

/-- The getter `get_name`. -/
def get_name (t : Task) : Str := t.name_task

/-- The getter `isDone`. -/
def isDone (t : Task) : Bool := t.is_done

/-- The method `done`: the task afterwards and the returned flag. -/
def done (t : Task) : Task × Bool :=
  if t.is_done then (t, false) else (⟨t.name_task, true⟩, true)

/-- The method `undo`: the task afterwards and the returned flag. -/
def undo (t : Task) : Task × Bool :=
  if t.is_done then (⟨t.name_task, false⟩, true) else (t, false)

/-- The comparison `operator<`: `is_done < other.is_done` on `bool`. -/
def lt (a other : Task) : Bool := !a.is_done && other.is_done

/-- The method `to_string`: the name, a newline, then `1` or `0`. -/
def to_string (t : Task) : Str :=
  t.name_task ++ ['\n'] ++ [if t.is_done then '1' else '0']

end Task

/-- The enum `Color`, by its ANSI code. -/
inductive Color where
  | black | red | green | yellow | blue | magenta | cyan | white
deriving DecidableEq, Repr

/-- The integer value of a `Color`. -/
def Color.code : Color → Nat
  | .black => 30 | .red => 31 | .green => 32 | .yellow => 33
  | .blue => 34 | .magenta => 35 | .cyan => 36 | .white => 37

/-- The array `check_color`, indexed by the completion flag. -/
def check_color (is_done : Bool) : Color := if is_done then Color.green else Color.red

/-- The decimal text `std::to_string` gives for a non-negative number. -/
def nat_to_string (n : Nat) : Str := (Nat.repr n).toList

/-! ### `std::stoi` and `parse_int` -/

/-- The C locale's `isspace`. -/
def isspace (c : Char) : Bool :=
  c == ' ' || c == '\t' || c == '\n' || c == '\x0b' || c == '\x0c' || c == '\r'

/-- The predicate `isdigit`. -/
def isdigit (c : Char) : Bool := '0' ≤ c && c ≤ '9'

/-- The value of the longest prefix of decimal digits, and how many digits it has. -/
def read_digits : Nat → Nat → Str → Nat × Nat
  | acc, cnt, [] => (acc, cnt)
  | acc, cnt, c :: cs =>
    if isdigit c then read_digits (acc * 10 + (c.toNat - '0'.toNat)) (cnt + 1) cs
    else (acc, cnt)

/-- The two exceptions `std::stoi` throws. -/
inductive StoiError where
  | invalid_argument | out_of_range
deriving DecidableEq, Repr

/-- The function `std::stoi(x)` in base 10: leading white space is skipped, a sign
is optional, the digits that follow are read and whatever comes after them is
ignored; no digit gives `invalid_argument`, a value outside `int` gives
`out_of_range`. -/
def stoi (x : Str) : Except StoiError Int :=
  let s := x.dropWhile isspace
  let (neg, body) : Bool × Str :=
    match s with
    | '-' :: r => (true, r)
    | '+' :: r => (false, r)
    | r => (false, r)
  let (v, cnt) := read_digits 0 0 body
  if cnt = 0 then Except.error StoiError.invalid_argument
  else
    let n : Int := if neg then -(v : Int) else (v : Int)
    if n < -2147483648 ∨ 2147483647 < n then Except.error StoiError.out_of_range
    else Except.ok n

/-- The method `parse_int`: the parsed number, or `-1` when `std::stoi` throws. -/
def parse_int (x : Str) : Int :=
  match stoi x with
  | Except.ok num => num
  | Except.error _ => -1

/-! ### Lines of a file -/

/-- The lines successive `getline` calls return on the rest of a stream, `cur`
being the part of the current line already read: a line ends at a newline, and
a last line without newline is returned when it is not empty. -/
def getlinesFrom (cur : Str) : Str → List Str
  | [] => if cur = [] then [] else [cur]
  | c :: cs => if c = '\n' then cur :: getlinesFrom [] cs else getlinesFrom (cur ++ [c]) cs

/-- All lines `while (getline(in, line))` reads from a file with the given contents. -/
def getlines (contents : Str) : List Str := getlinesFrom [] contents

/-! ### The class `Manage` -/

/-- The contract of `std::sort` on a vector of tasks: the result rearranges the
input and no element is `operator<`-smaller than one that precedes it. -/
structure StdSort where
  sort : List Task → List Task
  perm : ∀ l, List.Perm (sort l) l
  sorted : ∀ l, List.Pairwise (fun a b => Task.lt b a = false) (sort l)

/-- The state of a `Manage` object together with the two things it acts on: the
contents of the file `task_file_db` (`none` while the file does not exist) and
the characters written to `std::cout`.  The member `command` is passed to
`process_command` as an argument. -/
structure Manage where
  tasks : List Task
  memo_name : Finset Str
  is_end : Bool
  file : Option Str
  out : Str
deriving DecidableEq

namespace Manage

/-- Writing a text to `std::cout`. -/
def cout (text : Str) (m : Manage) : Manage := { m with out := m.out ++ text }

/-- The method `clear_terminal`. -/
def clear_terminal (m : Manage) : Manage := cout "\x1b[H\x1b[2J\x1b[3J".toList m

/-- The text `print_colored` writes. -/
def colored_text (color : Color) (bold_text under_line : Bool) (message : Str) : Str :=
  let pref := "\x1b[".toList
  let pref := if bold_text then pref ++ "1;".toList else pref
  let pref := if under_line then pref ++ "4;".toList else pref
  let pref := pref ++ nat_to_string color.code
  pref ++ "m".toList ++ message ++ "\x1b[0m".toList ++ ['\n']

/-- The method `print_colored`. -/
def print_colored (color : Color) (bold_text under_line : Bool) (message : Str)
    (m : Manage) : Manage :=
  cout (colored_text color bold_text under_line message) m

/-- The method `print_error`: red and underlined. -/
def print_error (message : Str) (m : Manage) : Manage :=
  print_colored Color.red false true message m

/-- One entry of the tutorial, for the command at index `i`. -/
def tutorial_entry (i : Nat) : Str :=
  nat_to_string (i + 1) ++ ") \x1b[1;".toList ++ nat_to_string Color.blue.code ++ "m".toList
    ++ COMMAND.getD i [] ++ " ".toList ++ OPTION_COMMAND.getD i [] ++ "\x1b[0m".toList
    ++ "\x1b[4m".toList ++ ['\t'] ++ DESCRIPTION_COMMAND.getD i [] ++ "\x1b[0m".toList
    ++ ['\n'] ++ ['\n']

/-- The method `print_tutorial`. -/
def print_tutorial (m : Manage) : Manage :=
  let m := cout (['\n'] ++ "\x1b[1;32mTutorial\x1b[0m".toList ++ ['\n']) m
  (List.range COMMAND.length).foldl (fun acc i => cout (tutorial_entry i) acc) m

/-- The text `update_file` writes for a task list: for each task its
`to_string` followed by `std::endl`. -/
def file_text : List Task → Str
  | [] => []
  | x :: rest => x.to_string ++ ['\n'] ++ file_text rest

/-- The method `update_file`: the file is truncated and rewritten. -/
def update_file (m : Manage) : Manage := { m with file := some (file_text m.tasks) }

/-- The state of the loop of `init`. -/
structure InitLoop where
  cnt : Nat
  name_task : Str
  flag : Bool
  memo_name : Finset Str
  tasks : List Task

/-- One iteration of the loop of `init`, for the line just read. -/
def init_step (st : InitLoop) (line : Str) : InitLoop :=
  let name_task := if st.cnt = 0 then line else st.name_task
  let flag := if st.cnt = 0 then st.flag else if st.cnt = 1 then decide (line = "1".toList)
    else st.flag
  let cnt := (st.cnt + 1) % NUMBER_ATTRIBUTE_TASK
  if cnt = 0 then
    let prv_size := st.memo_name.card
    let memo_name := insert name_task st.memo_name
    if memo_name.card ≠ prv_size then
      ⟨cnt, name_task, flag, memo_name, st.tasks ++ [⟨name_task, flag⟩]⟩
    else ⟨cnt, name_task, flag, memo_name, st.tasks⟩
  else ⟨cnt, name_task, flag, st.memo_name, st.tasks⟩

/-- The method `init`: the terminal is cleared and the file is read line by
line.  The local `flag` is written before it is read; it starts here as `false`. -/
def init (m : Manage) : Manage :=
  let m := clear_terminal m
  let lines := match m.file with
    | none => []
    | some contents => getlines contents
  let st := lines.foldl init_step ⟨0, [], false, m.memo_name, m.tasks⟩
  { m with tasks := st.tasks, memo_name := st.memo_name }

/-- A `Manage` object as its constructor finds it, next to a file. -/
def fresh (file : Option Str) : Manage := ⟨[], ∅, false, file, []⟩

/-- The end of `sortTask`: the vector is sorted, reversed when asked, and saved. -/
def sort_and_save (S : StdSort) (need_reverse : Bool) (m : Manage) : Manage :=
  let sorted := S.sort m.tasks
  let sorted := if need_reverse then sorted.reverse else sorted
  update_file { m with tasks := sorted }

/-- The method `sortTask`. -/
def sortTask (S : StdSort) (option : Str) (m : Manage) : Manage :=
  if option ≠ [] then
    let z := parse_int option
    if z > -1 ∧ z < 2 then sort_and_save S (decide (z = 1)) m
    else print_error "Invalid sort option [0 - 1]".toList m
  else sort_and_save S false m

/-- The method `to_lowercase`, on the command line. -/
def to_lowercase (command : Str) : Str :=
  command.map (fun x => if 'A' ≤ x ∧ x ≤ 'Z' then Char.ofNat (x.toNat + UP_TO_LOW) else x)

/-- The statement `arr.back() += x`. -/
def back_append (arr : List Str) (x : Char) : List Str :=
  match arr.getLast? with
  | some last => arr.dropLast ++ [last ++ [x]]
  | none => arr

/-- One iteration of the loop of `split`: the vector `arr` and `prv`. -/
def split_step (st : List Str × Char) (x : Char) : List Str × Char :=
  let arr := st.1
  let arr :=
    if x ≠ ' ' then
      let arr := if st.2 = ' ' then arr ++ [[]] else arr
      back_append arr x
    else arr
  (arr, x)

/-- The method `split`, on the command line. -/
def split (command : Str) : List Str := (command.foldl split_step ([], ' ')).1

/-- The method `add_task`. -/
def add_task (new_task : Str) (m : Manage) : Manage :=
  if new_task ∈ m.memo_name then print_error "Task already exists".toList m
  else
    update_file { m with memo_name := insert new_task m.memo_name,
                         tasks := m.tasks ++ [Task.mk1 new_task] }

/-- One line of the list `print_task` writes, for the task at index `i`. -/
def task_line (i : Nat) (task : Task) : Str :=
  nat_to_string i ++ " ".toList ++ "\x1b[1;".toList ++ nat_to_string (check_color task.isDone).code
    ++ "m".toList ++ task.get_name ++ "\x1b[0m".toList ++ ['\n']

/-- The loop of `print_task` from index `i` on: the text written and the
number added to `cnt_done`. -/
def print_task_loop : Nat → List Task → Str × Nat
  | _, [] => ([], 0)
  | i, task :: rest =>
    let r := print_task_loop (i + 1) rest
    (task_line i task ++ r.1, (if task.isDone then 1 else 0) + r.2)

/-- The method `print_task`. -/
def print_task (m : Manage) : Manage :=
  let r := print_task_loop 0 m.tasks
  let cnt_done := r.2
  let m := cout r.1 m
  if cnt_done = m.tasks.length then
    cout ("\x1b[1;32mAll tasks done :)\x1b[0m".toList ++ ['\n']) m
  else
    let m := cout ("Stats:\t".toList ++ "\x1b[1;".toList ++ nat_to_string (check_color false).code
      ++ "mundone:\t".toList ++ nat_to_string (m.tasks.length - cnt_done) ++ "\x1b[0m".toList) m
    cout ("\x1b[1;".toList ++ nat_to_string (check_color true).code ++ "m done:".toList
      ++ nat_to_string cnt_done ++ "\x1b[0m".toList ++ ['\n']) m

/-- The method `find_idx_task`: the first index whose task has the name, or `-1`. -/
def find_idx_task (name_task : Str) (tasks : List Task) : Int :=
  let i := tasks.findIdx (fun t => decide (name_task = t.get_name))
  if i = tasks.length then -1 else (i : Int)

/-- The element `tasks[i]` for an `int` index; `none` outside the vector. -/
def task_at (tasks : List Task) (i : Int) : Option Task :=
  if i < 0 then none else tasks[i.toNat]?

/-- The loop of `remove_task` for the option `-d`: the vector `supp` and the
name set after the tasks have been visited. -/
def remove_done_loop (tasks : List Task) (memo_name : Finset Str) : List Task × Finset Str :=
  tasks.foldl (fun acc t =>
    if !t.isDone then (acc.1 ++ [t], acc.2) else (acc.1, acc.2.erase t.get_name))
    ([], memo_name)

/-- The last three statements of `remove_task`, for the index found. -/
def remove_at (id_task : Int) (m : Manage) : Option Manage :=
  match task_at m.tasks id_task with
  | none => none
  | some t =>
    some (update_file { m with memo_name := m.memo_name.erase t.get_name,
                               tasks := m.tasks.eraseIdx id_task.toNat })

/-- The method `remove_task`. -/
def remove_task (second_part : Str) (m : Manage) : Option Manage :=
  let id_task := parse_int second_part
  if second_part ∈ m.memo_name then
    remove_at (find_idx_task second_part m.tasks) m
  else if second_part = "-d".toList ∨ second_part = "-r".toList then
    if second_part = "-d".toList then
      let r := remove_done_loop m.tasks m.memo_name
      some (update_file { m with tasks := r.1, memo_name := r.2 })
    else
      some (update_file { m with tasks := [], memo_name := ∅ })
  else if id_task < 0 ∨ id_task ≥ (m.tasks.length : Int) then
    some (print_error "Invalid id_task or name_task or option".toList m)
  else remove_at id_task m

/-- The end of `do_task` and `undo_task`, for the index found: the task is
toggled; when the toggle reports no change a notice is written, otherwise the
file is rewritten. -/
def mark_at (toggle : Task → Task × Bool) (id_task : Int) (m : Manage) : Option Manage :=
  match task_at m.tasks id_task with
  | none => none
  | some t =>
    let r := toggle t
    let m := { m with tasks := m.tasks.set id_task.toNat r.1 }
    if !r.2 then some (cout "Da fixare".toList m) else some (update_file m)

/-- The method `do_task`. -/
def do_task (second_part : Str) (m : Manage) : Option Manage :=
  let id_task : Int := 0
  if second_part ∈ m.memo_name then
    mark_at Task.done (find_idx_task second_part m.tasks) m
  else if id_task < 0 ∨ id_task ≥ (m.tasks.length : Int) then
    some (print_error "Invalid id_task or name_task".toList m)
  else mark_at Task.done id_task m

/-- The method `undo_task`. -/
def undo_task (second_part : Str) (m : Manage) : Option Manage :=
  let id_task : Int := 0
  if second_part ∈ m.memo_name then
    mark_at Task.undo (find_idx_task second_part m.tasks) m
  else if id_task < 0 ∨ id_task ≥ (m.tasks.length : Int) then
    some (print_error "Invalid id_task or name_task".toList m)
  else mark_at Task.undo id_task m

/-- The argument string `process_command` builds from the tokens after the
first: each followed by a space, the last space removed. -/
def join_rest (rest : List Str) : Str :=
  if rest.length > 0 then (rest.foldl (fun acc p => acc ++ (p ++ " ".toList)) []).dropLast
  else []

/-- The method `process_command`, on the line held by the member `command`.
An empty token vector makes the read of `part[0]` undefined: `none`. -/
def process_command (S : StdSort) (command : Str) (m : Manage) : Option Manage :=
  let part := split (to_lowercase command)
  match part with
  | [] => none
  | p0 :: rest =>
    if p0 ∉ COMMAND then some (print_error "Not a valid command".toList m)
    else
      let has_second : Bool := decide (part.length > 1)
      let second_part := join_rest rest
      let requires := "The command ".toList ++ p0 ++ " requires an option".toList
      if p0 = "clear".toList then some (clear_terminal m)
      else if p0 = "ls".toList then some (print_task m)
      else if p0 = "exit".toList then some { m with is_end := true }
      else if p0 = "sort".toList then some (sortTask S (if has_second then rest.headD [] else []) m)
      else if p0 = "man".toList then some (print_tutorial m)
      else if p0 = "add".toList then
        if !has_second then some (print_error requires m) else some (add_task second_part m)
      else if p0 = "rm".toList then
        if !has_second then some (print_error requires m) else remove_task second_part m
      else if p0 = "do".toList then
        if !has_second then some (print_error requires m) else do_task second_part m
      else if p0 = "undo".toList then
        if !has_second then some (print_error requires m) else undo_task second_part m
      else some m

/-- The commands of a list processed one after the other. -/
def process_commands (S : StdSort) : List Str → Manage → Option Manage
  | [], m => some m
  | command :: rest, m =>
    match process_command S command m with
    | none => none
    | some m1 => process_commands S rest m1

end Manage

/-- The uniqueness invariant of the store: no name occurs twice in the task
sequence, and the name set holds exactly the names of the sequence. -/
def Inv (m : Manage) : Prop :=
  (m.tasks.map Task.get_name).Nodup ∧ m.memo_name = (m.tasks.map Task.get_name).toFinset

/-- Insertion of a task into a sorted vector, behind the tasks that are
`operator<`-smaller than it and in front of all others. -/
def insert_sorted (t : Task) : List Task → List Task
  | [] => [t]
  | u :: rest => if Task.lt u t then u :: insert_sorted t rest else t :: u :: rest

/-- An insertion sort by `operator<`. -/
def insertion_sort : List Task → List Task
  | [] => []
  | t :: rest => insert_sorted t (insertion_sort rest)

/-- Insertion sort meets the contract of `std::sort`. -/
def insertionStdSort : StdSort where
  sort := insertion_sort
  perm := by
    have hins : ∀ (t : Task) (l : List Task), List.Perm (insert_sorted t l) (t :: l) := by
      intro t l
      induction l with
      | nil => exact List.Perm.refl _
      | cons u rest ih =>
        unfold insert_sorted
        split
        · exact (List.Perm.cons u ih).trans (List.Perm.swap t u rest)
        · exact List.Perm.refl _
    intro l
    induction l with
    | nil => exact List.Perm.refl _
    | cons t rest ih => exact (hins t _).trans (List.Perm.cons t ih)
  sorted := by
    have hmem : ∀ (t x : Task) (l : List Task), x ∈ insert_sorted t l → x = t ∨ x ∈ l := by
      intro t x l
      induction l with
      | nil => intro h; simpa [insert_sorted] using h
      | cons u rest ih =>
        unfold insert_sorted
        split
        · intro h
          rcases List.mem_cons.mp h with h | h
          · exact Or.inr (h ▸ List.mem_cons_self _ _)
          · rcases ih h with h | h
            · exact Or.inl h
            · exact Or.inr (List.mem_cons_of_mem _ h)
        · intro h; exact List.mem_cons.mp h
    have hins : ∀ (t : Task) (l : List Task),
        List.Pairwise (fun a b => Task.lt b a = false) l →
        List.Pairwise (fun a b => Task.lt b a = false) (insert_sorted t l) := by
      intro t l
      induction l with
      | nil => intro _; simp [insert_sorted]
      | cons u rest ih =>
        intro h
        have hu := (List.pairwise_cons.mp h).1
        have hr := (List.pairwise_cons.mp h).2
        unfold insert_sorted
        split
        · rename_i hlt
          refine List.pairwise_cons.mpr ⟨?_, ih hr⟩
          intro x hx
          rcases hmem t x rest hx with hx | hx
          · subst hx
            simp only [Task.lt, Bool.and_eq_true, Bool.not_eq_true'] at hlt
            simp [Task.lt, hlt.1]
          · exact hu x hx
        · rename_i hlt
          refine List.pairwise_cons.mpr ⟨?_, h⟩
          intro x hx
          rcases List.mem_cons.mp hx with hx | hx
          · subst hx
            simpa using hlt
          · have h1 := hu x hx
            revert hlt h1
            simp only [Task.lt]
            generalize x.is_done = a
            generalize u.is_done = b
            generalize t.is_done = c
            cases a <;> cases b <;> cases c <;> simp
    intro l
    induction l with
    | nil => exact List.Pairwise.nil
    | cons t rest ih => exact hins t _ ih

/-- The complete pairs (line `2k`, line `2k+1`) of a list of lines, in order;
a trailing line without partner is left out. -/
def line_pairs : List Str → List (Str × Str)
  | a :: b :: rest => (a, b) :: line_pairs rest
  | _ => []

/-- The task a pair of lines stands for: the first line is the name, and the
task is done when the second line is exactly `1`. -/
def pair_task (p : Str × Str) : Task := ⟨p.1, decide (p.2 = "1".toList)⟩

/-- Of the tasks of each name only the first one is kept. -/
def keep_first_of_name : List Task → List Task
  | [] => []
  | t :: rest =>
    t :: (keep_first_of_name rest).filter (fun u => decide (u.name_task ≠ t.name_task))

/-- The reference definition of load, after the words of the specification:
the complete pairs of lines as tasks, the first one of each name. -/
def load_reference (lines : List Str) : List Task :=
  keep_first_of_name ((line_pairs lines).map pair_task)

/-- The file text with a blank line after each record: for each task its name
line, its flag line and an empty line. -/
def file_text_blank : List Task → Str
  | [] => []
  | x :: rest => x.to_string ++ ['\n'] ++ ['\n'] ++ file_text_blank rest

/-! ### The texts of `print_task` -/

/-- The line `print_task` writes when `cnt_done == tasks.size()`. -/
def all_done_text : Str := "\x1b[1;32mAll tasks done :)\x1b[0m".toList ++ ['\n']

/-- The stats line `print_task` writes otherwise, for the two counts. -/
def stats_text (undone done : Nat) : Str :=
  "Stats:\t".toList ++ "\x1b[1;".toList ++ nat_to_string (check_color false).code
    ++ "mundone:\t".toList ++ nat_to_string undone ++ "\x1b[0m".toList
    ++ ("\x1b[1;".toList ++ nat_to_string (check_color true).code ++ "m done:".toList
      ++ nat_to_string done ++ "\x1b[0m".toList ++ ['\n'])

/-- The list `print_task` writes before the summary: one line per task. -/
def task_lines (tasks : List Task) : Str := (Manage.print_task_loop 0 tasks).1

/-! ### The persisted file -/

/-- What a reader finds in the file `task_file_db`: nothing while it does not exist. -/
def file_contents (m : Manage) : Str := m.file.getD []

/-- The file holds the serialization of the current task list. -/
def Saved (m : Manage) : Prop := file_contents m = Manage.file_text m.tasks

/-- The two lines of a record, after the words of the specification: the
name, then `1` for a done task and `0` for an undone one. -/
def record_lines (t : Task) : List Str :=
  [t.name_task, if t.is_done then ['1'] else ['0']]

/-- The serialization of a task list, after the words of the specification:
for each task in order its name line and its flag line, every line ended by a
newline. -/
def serialization_reference (tasks : List Task) : Str :=
  (((tasks.map record_lines).flatten).map (fun line => line ++ ['\n'])).flatten

/-! ### Reference definition of the tokenizer -/

/-- The reference definition of `split`, after the words of the specification:
the line is cut at every space and the non-empty pieces are kept, which are
the maximal runs of non-space characters, in order. -/
def tokens_reference (command : Str) : List Str :=
  (command.splitOn ' ').filter (fun t => decide (t ≠ []))

/-- No character of the string and its successor are both spaces. -/
def no_double_space (s : Str) : Prop := List.Chain' (fun a b => ¬ (a = ' ' ∧ b = ' ')) s

/-! ### The loop of `run` -/

/-- How a call of `run` ends on a given standard input. -/
inductive RunResult where
  /-- The loop ended and the terminal was cleared. -/
  | returned (m : Manage)
  /-- The call `process_command` read `part[0]` of an empty vector. -/
  | undefined
  /-- The input is used up behind a final newline: `getline` fails, `command`
  is empty and the inner `do ... while (command == "")` does not end. -/
  | waiting (m : Manage)
  /-- The input ended inside its last line: the next `getline` fails on the
  stream at end of file and leaves `command` as it is, so the loop calls
  `process_command` on that line again and again, first in the state `m`. -/
  | repeating (command : Str) (m : Manage)

namespace Manage

/-- The prompt `run` writes before it reads a command. -/
def prompt_text : Str :=
  "Insert command:\t".toList ++ ("\x1b[1;".toList ++ nat_to_string Color.yellow.code ++ "m".toList)

/-- The loop of `run` on the lines standard input still holds; `terminated`
tells whether the last of them ends with a newline.  `prompted` tells that the
prompt of the current iteration is written already, the inner loop having read
an empty line. -/
def run_from (S : StdSort) (terminated : Bool) : Bool → List Str → Manage → RunResult
  | prompted, [], m =>
    if prompted then RunResult.waiting m
    else if m.is_end then RunResult.returned (clear_terminal m)
    else RunResult.waiting (cout prompt_text m)
  | prompted, line :: rest, m =>
    if !prompted && m.is_end then RunResult.returned (clear_terminal m)
    else
      let m := if prompted then m else cout prompt_text m
      if line = [] then run_from S terminated true rest m
      else
        match process_command S line (cout "\x1b[0m".toList m) with
        | none => RunResult.undefined
        | some m1 =>
          if rest.isEmpty && !terminated then
            if m1.is_end then RunResult.returned (clear_terminal m1)
            else RunResult.repeating line m1
          else run_from S terminated false rest m1

/-- The method `run`, on the lines of standard input; `terminated` tells
whether the last line ends with a newline. -/
def run (S : StdSort) (input : List Str) (terminated : Bool) (m : Manage) : RunResult :=
  run_from S terminated false input m

end Manage

/-! ## Lemmas on lists and name sets -/

section ListLemmas

variable {α β : Type}

theorem map_eraseIdx_comm (f : α → β) (l : List α) (i : Nat) :
    (l.eraseIdx i).map f = (l.map f).eraseIdx i := by
  induction l generalizing i with
  | nil => rfl
  | cons a l ih =>
    cases i with
    | zero => rfl
    | succ j => simp [ih]

theorem toFinset_eraseIdx_of_nodup [DecidableEq β] (l : List β) (i : Nat) (x : β)
    (hx : l[i]? = some x) (hl : l.Nodup) :
    (l.eraseIdx i).toFinset = l.toFinset.erase x := by
  induction l generalizing i with
  | nil => simp at hx
  | cons a l ih =>
    have ha : a ∉ l := (List.nodup_cons.mp hl).1
    cases i with
    | zero =>
      simp only [List.getElem?_cons_zero, Option.some.injEq] at hx
      subst hx
      simp [ha]
    | succ j =>
      simp only [List.getElem?_cons_succ] at hx
      have hxl : x ∈ l := List.getElem?_mem hx
      have hne : a ≠ x := fun h => ha (h ▸ hxl)
      simp only [List.eraseIdx_cons_succ, List.toFinset_cons, ih j hx (List.nodup_cons.mp hl).2]
      exact (Finset.erase_insert_of_ne hne).symm

theorem map_set_same (f : α → β) (l : List α) (i : Nat) (t u : α)
    (ht : l[i]? = some t) (hf : f u = f t) :
    (l.set i u).map f = l.map f := by
  induction l generalizing i with
  | nil => rfl
  | cons a l ih =>
    cases i with
    | zero =>
      simp only [List.getElem?_cons_zero, Option.some.injEq] at ht
      subst ht
      simp [hf]
    | succ j =>
      simp only [List.getElem?_cons_succ] at ht
      simp [ih j ht]

end ListLemmas

/-! ## Lemmas on the operations -/

namespace Manage

theorem task_at_eq_some {tasks : List Task} {i : Int} {t : Task}
    (h : task_at tasks i = some t) : 0 ≤ i ∧ tasks[i.toNat]? = some t := by
  unfold task_at at h
  split at h
  · exact absurd h (by simp)
  · exact ⟨by omega, h⟩

theorem task_at_natCast (tasks : List Task) (i : Nat) :
    task_at tasks (i : Int) = tasks[i]? := by
  simp [task_at]

theorem find_idx_task_of_mem (name_task : Str) (tasks : List Task)
    (h : name_task ∈ tasks.map Task.get_name) :
    ∃ (i : Nat) (t : Task), find_idx_task name_task tasks = (i : Int) ∧ tasks[i]? = some t
      ∧ t.get_name = name_task ∧ i = tasks.findIdx (fun t => decide (name_task = t.get_name)) := by
  obtain ⟨u, hu, hun⟩ := List.mem_map.mp h
  have hlt : tasks.findIdx (fun t => decide (name_task = t.get_name)) < tasks.length :=
    List.findIdx_lt_length_of_exists ⟨u, hu, by simp [hun]⟩
  refine ⟨_, tasks[tasks.findIdx (fun t => decide (name_task = t.get_name))], ?_, ?_, ?_, rfl⟩
  · unfold find_idx_task
    simp [Nat.ne_of_lt hlt]
  · exact List.getElem?_eq_getElem hlt
  · have := List.findIdx_getElem (w := hlt)
    exact (of_decide_eq_true this).symm

theorem find_idx_task_append_new (name_task : Str) (tasks : List Task) (t : Task)
    (h : name_task ∉ tasks.map Task.get_name) (ht : t.get_name = name_task) :
    find_idx_task name_task (tasks ++ [t]) = (tasks.length : Int) := by
  have hidx : (tasks ++ [t]).findIdx (fun t => decide (name_task = t.get_name)) = tasks.length := by
    induction tasks with
    | nil => simp [List.findIdx_cons, ht]
    | cons a l ih =>
      have ha : name_task ≠ a.get_name := fun e => h (by simp [e])
      have hl : name_task ∉ l.map Task.get_name := fun e => h (by simp at e ⊢; exact Or.inr e)
      simp [List.findIdx_cons, ha, ih hl]
  unfold find_idx_task
  simp [hidx]

theorem remove_done_loop_eq (tasks : List Task) (memo_name : Finset Str) :
    remove_done_loop tasks memo_name =
      (tasks.filter (fun t => !t.isDone),
       memo_name \ ((tasks.filter (fun t => t.isDone)).map Task.get_name).toFinset) := by
  have key : ∀ (l acc : List Task) (s : Finset Str),
      l.foldl (fun acc t =>
        if !t.isDone then (acc.1 ++ [t], acc.2) else (acc.1, acc.2.erase t.get_name)) (acc, s)
      = (acc ++ l.filter (fun t => !t.isDone),
         s \ ((l.filter (fun t => t.isDone)).map Task.get_name).toFinset) := by
    intro l
    induction l with
    | nil => intro acc s; simp
    | cons a l ih =>
      intro acc s
      cases hd : a.isDone
      · rw [List.foldl_cons]
        simp only [hd, Bool.not_false, if_true]
        rw [ih]
        simp [List.filter_cons, hd]
      · rw [List.foldl_cons]
        simp only [hd, Bool.not_true, Bool.false_eq_true, if_false]
        rw [ih]
        simp only [List.filter_cons, hd, Bool.not_true, Bool.false_eq_true, if_false, if_true,
          List.map_cons, List.toFinset_cons]
        congr 1
        ext x
        simp only [Finset.mem_sdiff, Finset.mem_erase, Finset.mem_insert, List.mem_toFinset]
        tauto
  simpa [remove_done_loop] using key tasks [] memo_name

theorem names_undone_of_nodup (tasks : List Task)
    (h : (tasks.map Task.get_name).Nodup) :
    (tasks.map Task.get_name).toFinset
        \ ((tasks.filter (fun t => t.isDone)).map Task.get_name).toFinset
      = ((tasks.filter (fun t => !t.isDone)).map Task.get_name).toFinset := by
  ext x
  simp only [Finset.mem_sdiff, List.mem_toFinset, List.mem_map, List.mem_filter]
  constructor
  · rintro ⟨⟨t, ht, rfl⟩, hnot⟩
    refine ⟨t, ⟨ht, ?_⟩, rfl⟩
    cases hd : t.isDone
    · rfl
    · exact absurd ⟨t, ⟨ht, hd⟩, rfl⟩ hnot
  · rintro ⟨t, ⟨ht, hd⟩, rfl⟩
    refine ⟨⟨t, ht, rfl⟩, ?_⟩
    rintro ⟨u, ⟨hu, hud⟩, hname⟩
    have := List.inj_on_of_nodup_map h hu ht hname
    subst this
    simp [hud] at hd

/-! ### The invariant is kept by every operation -/

theorem inv_of_names_eq {m m1 : Manage}
    (ht : m1.tasks.map Task.get_name = m.tasks.map Task.get_name)
    (hm : m1.memo_name = m.memo_name) (h : Inv m) : Inv m1 := by
  unfold Inv at *
  rw [ht, hm]
  exact h

theorem tasks_foldl_cout (f : Nat → Str) (l : List Nat) (m : Manage) :
    (l.foldl (fun acc i => cout (f i) acc) m).tasks = m.tasks
      ∧ (l.foldl (fun acc i => cout (f i) acc) m).memo_name = m.memo_name := by
  induction l generalizing m with
  | nil => exact ⟨rfl, rfl⟩
  | cons a l ih => simpa [cout] using ih (cout (f a) m)

theorem inv_print_error (message : Str) {m : Manage} (h : Inv m) :
    Inv (print_error message m) :=
  inv_of_names_eq rfl rfl h

theorem inv_print_tutorial {m : Manage} (h : Inv m) : Inv (print_tutorial m) := by
  have := tasks_foldl_cout tutorial_entry (List.range COMMAND.length)
    (cout (['\n'] ++ "\x1b[1;32mTutorial\x1b[0m".toList ++ ['\n']) m)
  exact inv_of_names_eq (by rw [print_tutorial, this.1]; rfl) (by rw [print_tutorial, this.2]; rfl) h

theorem inv_print_task {m : Manage} (h : Inv m) : Inv (print_task m) := by
  unfold print_task
  simp only
  split
  · exact inv_of_names_eq rfl rfl h
  · exact inv_of_names_eq rfl rfl h

theorem inv_add_task (new_task : Str) {m : Manage} (h : Inv m) : Inv (add_task new_task m) := by
  unfold add_task
  split
  · exact inv_print_error _ h
  · rename_i hnew
    obtain ⟨hnd, hmemo⟩ := h
    rw [hmemo, List.mem_toFinset] at hnew
    refine ⟨?_, ?_⟩
    · simp only [update_file, List.map_append, List.map_cons, List.map_nil]
      refine List.Nodup.append hnd (List.nodup_singleton _) ?_
      intro x hx hx1
      rw [List.mem_singleton] at hx1
      subst hx1
      exact hnew hx
    · simp only [update_file, List.map_append, List.map_cons, List.map_nil, hmemo]
      ext x
      simp [Task.mk1, Task.get_name, or_comm]

theorem inv_remove_at {id_task : Int} {m m1 : Manage} (h : Inv m)
    (hr : remove_at id_task m = some m1) : Inv m1 := by
  unfold remove_at at hr
  split at hr
  · exact absurd hr (by simp)
  · rename_i t ht
    obtain ⟨-, hget⟩ := task_at_eq_some ht
    simp only [Option.some.injEq] at hr
    subst hr
    obtain ⟨hnd, hmemo⟩ := h
    have hname : (m.tasks.map Task.get_name)[id_task.toNat]? = some t.get_name := by
      simp [List.getElem?_map, hget]
    refine ⟨?_, ?_⟩
    · simp only [update_file, map_eraseIdx_comm]
      exact List.Nodup.eraseIdx _ hnd
    · simp only [update_file, map_eraseIdx_comm]
      rw [toFinset_eraseIdx_of_nodup _ _ _ hname hnd, hmemo]

theorem remove_at_find_defined (second_part : Str) {m : Manage} (h : Inv m)
    (hmem : second_part ∈ m.memo_name) :
    ∃ m1, remove_at (find_idx_task second_part m.tasks) m = some m1 := by
  rw [h.2, List.mem_toFinset] at hmem
  obtain ⟨i, t, hi, ht, -, -⟩ := find_idx_task_of_mem second_part m.tasks hmem
  simp [remove_at, hi, task_at_natCast, ht]

theorem inv_remove_task (second_part : Str) {m : Manage} (h : Inv m) :
    ∃ m1, remove_task second_part m = some m1 ∧ Inv m1 := by
  unfold remove_task
  simp only
  split
  · rename_i hmem
    obtain ⟨m1, hm1⟩ := remove_at_find_defined second_part h hmem
    exact ⟨m1, hm1, inv_remove_at h hm1⟩
  · split
    · split
      · refine ⟨_, rfl, ?_⟩
        rw [remove_done_loop_eq]
        refine ⟨?_, ?_⟩
        · exact List.Nodup.sublist (List.Sublist.map _ (List.filter_sublist _)) h.1
        · simp only [update_file]
          rw [h.2, names_undone_of_nodup _ h.1]
      · exact ⟨_, rfl, List.nodup_nil, rfl⟩
    · split
      · exact ⟨_, rfl, inv_print_error _ h⟩
      · rename_i hrange
        have hlt : (parse_int second_part).toNat < m.tasks.length := by omega
        have hat : task_at m.tasks (parse_int second_part)
            = some (m.tasks[(parse_int second_part).toNat]) := by
          unfold task_at
          rw [if_neg (by omega)]
          exact List.getElem?_eq_getElem hlt
        have hr : remove_at (parse_int second_part) m = some (update_file { m with
            memo_name := m.memo_name.erase (m.tasks[(parse_int second_part).toNat]).get_name,
            tasks := m.tasks.eraseIdx (parse_int second_part).toNat }) := by
          simp [remove_at, hat]
        exact ⟨_, hr, inv_remove_at h hr⟩

theorem names_mark_at {toggle : Task → Task × Bool} {id_task : Int} {m m1 : Manage}
    (htog : ∀ t, (toggle t).1.get_name = t.get_name)
    (hr : mark_at toggle id_task m = some m1) :
    m1.tasks.map Task.get_name = m.tasks.map Task.get_name ∧ m1.memo_name = m.memo_name := by
  unfold mark_at at hr
  split at hr
  · exact absurd hr (by simp)
  · rename_i t ht
    obtain ⟨-, hget⟩ := task_at_eq_some ht
    simp only at hr
    split at hr
    · simp only [Option.some.injEq] at hr
      subst hr
      exact ⟨map_set_same _ _ _ t _ hget (htog t), rfl⟩
    · simp only [Option.some.injEq] at hr
      subst hr
      exact ⟨map_set_same _ _ _ t _ hget (htog t), rfl⟩

theorem get_name_done (t : Task) : (Task.done t).1.get_name = t.get_name := by
  unfold Task.done
  split <;> rfl

theorem get_name_undo (t : Task) : (Task.undo t).1.get_name = t.get_name := by
  unfold Task.undo
  split <;> rfl

theorem mark_at_defined (toggle : Task → Task × Bool) (id_task : Int) (m : Manage) (t : Task)
    (ht : task_at m.tasks id_task = some t) : ∃ m1, mark_at toggle id_task m = some m1 := by
  unfold mark_at
  rw [ht]
  simp only
  split
  · exact ⟨_, rfl⟩
  · exact ⟨_, rfl⟩

theorem inv_mark (toggle : Task → Task × Bool) (second_part : Str) {m : Manage}
    (htog : ∀ t, (toggle t).1.get_name = t.get_name) (h : Inv m) :
    ∃ m1, (if second_part ∈ m.memo_name then
             mark_at toggle (find_idx_task second_part m.tasks) m
           else if (0 : Int) < 0 ∨ (0 : Int) ≥ (m.tasks.length : Int) then
             some (print_error "Invalid id_task or name_task".toList m)
           else mark_at toggle 0 m) = some m1 ∧ Inv m1 := by
  split
  · rename_i hmem
    rw [h.2, List.mem_toFinset] at hmem
    obtain ⟨i, t, hi, ht, -, -⟩ := find_idx_task_of_mem second_part m.tasks hmem
    obtain ⟨m1, hm1⟩ := mark_at_defined toggle (find_idx_task second_part m.tasks) m t
      (by rw [hi, task_at_natCast]; exact ht)
    exact ⟨m1, hm1, inv_of_names_eq (names_mark_at htog hm1).1 (names_mark_at htog hm1).2 h⟩
  · split
    · exact ⟨_, rfl, inv_print_error _ h⟩
    · rename_i hrange
      have hlt : 0 < m.tasks.length := by omega
      obtain ⟨m1, hm1⟩ := mark_at_defined toggle 0 m m.tasks[0]
        (by simp [task_at, List.getElem?_eq_getElem hlt])
      exact ⟨m1, hm1, inv_of_names_eq (names_mark_at htog hm1).1 (names_mark_at htog hm1).2 h⟩

theorem inv_do_task (second_part : Str) {m : Manage} (h : Inv m) :
    ∃ m1, do_task second_part m = some m1 ∧ Inv m1 :=
  inv_mark Task.done second_part get_name_done h

theorem inv_undo_task (second_part : Str) {m : Manage} (h : Inv m) :
    ∃ m1, undo_task second_part m = some m1 ∧ Inv m1 :=
  inv_mark Task.undo second_part get_name_undo h

theorem inv_sort_and_save (S : StdSort) (need_reverse : Bool) {m : Manage} (h : Inv m) :
    Inv (sort_and_save S need_reverse m) := by
  have hp : List.Perm (sort_and_save S need_reverse m).tasks m.tasks := by
    unfold sort_and_save
    simp only [update_file]
    split
    · exact (List.reverse_perm _).trans (S.perm _)
    · exact S.perm _
  have hpn := hp.map Task.get_name
  refine ⟨hpn.nodup_iff.mpr h.1, ?_⟩
  rw [List.toFinset_eq_of_perm _ _ hpn]
  exact h.2

theorem inv_sortTask (S : StdSort) (option : Str) {m : Manage} (h : Inv m) :
    Inv (sortTask S option m) := by
  unfold sortTask
  split
  · simp only
    split
    · exact inv_sort_and_save S _ h
    · exact inv_print_error _ h
  · exact inv_sort_and_save S _ h

theorem ite_cases {α : Type} (Q : α → Prop) (c : Prop) [Decidable c] (a b : α)
    (ha : Q a) (hb : Q b) : Q (if c then a else b) := by
  split
  · exact ha
  · exact hb

theorem inv_process_command (S : StdSort) (command : Str) {m : Manage} (h : Inv m)
    (hs : split (to_lowercase command) ≠ []) :
    ∃ m1, process_command S command m = some m1 ∧ Inv m1 := by
  unfold process_command
  simp only
  split
  · rename_i heq
    exact absurd heq hs
  · -- the chain of comparisons of `part[0]`, branch by branch
    refine ite_cases (fun r => ∃ m1, r = some m1 ∧ Inv m1) _ _ _ ?_ ?_
    · exact ⟨_, rfl, inv_print_error _ h⟩
    refine ite_cases (fun r => ∃ m1, r = some m1 ∧ Inv m1) _ _ _ ?_ ?_
    · exact ⟨_, rfl, inv_of_names_eq rfl rfl h⟩
    refine ite_cases (fun r => ∃ m1, r = some m1 ∧ Inv m1) _ _ _ ?_ ?_
    · exact ⟨_, rfl, inv_print_task h⟩
    refine ite_cases (fun r => ∃ m1, r = some m1 ∧ Inv m1) _ _ _ ?_ ?_
    · exact ⟨_, rfl, inv_of_names_eq rfl rfl h⟩
    refine ite_cases (fun r => ∃ m1, r = some m1 ∧ Inv m1) _ _ _ ?_ ?_
    · exact ⟨_, rfl, inv_sortTask S _ h⟩
    refine ite_cases (fun r => ∃ m1, r = some m1 ∧ Inv m1) _ _ _ ?_ ?_
    · exact ⟨_, rfl, inv_print_tutorial h⟩
    refine ite_cases (fun r => ∃ m1, r = some m1 ∧ Inv m1) _ _ _ ?_ ?_
    · refine ite_cases (fun r => ∃ m1, r = some m1 ∧ Inv m1) _ _ _ ?_ ?_
      · exact ⟨_, rfl, inv_print_error _ h⟩
      · exact ⟨_, rfl, inv_add_task _ h⟩
    refine ite_cases (fun r => ∃ m1, r = some m1 ∧ Inv m1) _ _ _ ?_ ?_
    · refine ite_cases (fun r => ∃ m1, r = some m1 ∧ Inv m1) _ _ _ ?_ ?_
      · exact ⟨_, rfl, inv_print_error _ h⟩
      · exact inv_remove_task _ h
    refine ite_cases (fun r => ∃ m1, r = some m1 ∧ Inv m1) _ _ _ ?_ ?_
    · refine ite_cases (fun r => ∃ m1, r = some m1 ∧ Inv m1) _ _ _ ?_ ?_
      · exact ⟨_, rfl, inv_print_error _ h⟩
      · exact inv_do_task _ h
    refine ite_cases (fun r => ∃ m1, r = some m1 ∧ Inv m1) _ _ _ ?_ ?_
    · refine ite_cases (fun r => ∃ m1, r = some m1 ∧ Inv m1) _ _ _ ?_ ?_
      · exact ⟨_, rfl, inv_print_error _ h⟩
      · exact inv_undo_task _ h
    exact ⟨_, rfl, h⟩

theorem inv_process_commands (S : StdSort) (cmds : List Str) {m : Manage} (h : Inv m)
    (hs : ∀ c ∈ cmds, split (to_lowercase c) ≠ []) :
    ∃ m1, process_commands S cmds m = some m1 ∧ Inv m1 := by
  induction cmds generalizing m with
  | nil => exact ⟨m, rfl, h⟩
  | cons c rest ih =>
    obtain ⟨m1, hm1, hinv1⟩ := inv_process_command S c h (hs c (List.mem_cons_self _ _))
    obtain ⟨m2, hm2, hinv2⟩ := ih hinv1 (fun d hd => hs d (List.mem_cons_of_mem _ hd))
    exact ⟨m2, by simp [process_commands, hm1, hm2], hinv2⟩

end Manage

/-! ### Saving and loading -/

namespace Manage

theorem getlinesFrom_line (cur line rest : Str) (h : '\n' ∉ line) :
    getlinesFrom cur (line ++ '\n' :: rest) = (cur ++ line) :: getlinesFrom [] rest := by
  induction line generalizing cur with
  | nil => simp [getlinesFrom]
  | cons c cs ih =>
    have hc : c ≠ '\n' := fun e => h (by simp [e])
    have hcs : '\n' ∉ cs := fun e => h (List.mem_cons_of_mem _ e)
    have hstep : getlinesFrom cur ((c :: cs) ++ '\n' :: rest)
        = getlinesFrom (cur ++ [c]) (cs ++ '\n' :: rest) := by
      rw [List.cons_append, getlinesFrom, if_neg hc]
    rw [hstep, ih _ hcs]
    simp

theorem getlines_file_text_cons (t : Task) (rest : List Task) (h : '\n' ∉ t.name_task) :
    getlines (file_text (t :: rest))
      = t.name_task :: [if t.is_done then '1' else '0'] :: getlines (file_text rest) := by
  have hflag : '\n' ∉ [if t.is_done then '1' else '0'] := by
    cases t.is_done <;> decide
  have hshape : file_text (t :: rest)
      = t.name_task ++ '\n' :: ([if t.is_done then '1' else '0'] ++ '\n' :: file_text rest) := by
    simp [file_text, Task.to_string]
  unfold getlines
  rw [hshape, getlinesFrom_line _ _ _ h, getlinesFrom_line _ _ _ hflag]
  simp

theorem init_step_pair (st : InitLoop) (t : Task) (hcnt : st.cnt = 0)
    (hnew : t.name_task ∉ st.memo_name) :
    init_step (init_step st t.name_task) [if t.is_done then '1' else '0']
      = ⟨0, t.name_task, t.is_done, insert t.name_task st.memo_name, st.tasks ++ [t]⟩ := by
  have hcard : (insert t.name_task st.memo_name).card ≠ st.memo_name.card := by
    rw [Finset.card_insert_of_not_mem hnew]
    omega
  have hflag : decide ([if t.is_done then '1' else '0'] = "1".toList) = t.is_done := by
    cases t.is_done <;> decide
  have h1 : init_step st t.name_task = ⟨1, t.name_task, st.flag, st.memo_name, st.tasks⟩ := by
    simp [init_step, hcnt, NUMBER_ATTRIBUTE_TASK]
  rw [h1]
  simp only [init_step, NUMBER_ATTRIBUTE_TASK, hflag]
  simp [hcard]

theorem init_loop_file_text (tasks : List Task) (st : InitLoop) (hcnt : st.cnt = 0)
    (hnd : (tasks.map Task.get_name).Nodup)
    (hnew : ∀ t ∈ tasks, t.get_name ∉ st.memo_name)
    (hnl : ∀ t ∈ tasks, '\n' ∉ t.get_name) :
    ((getlines (file_text tasks)).foldl init_step st).tasks = st.tasks ++ tasks
      ∧ ((getlines (file_text tasks)).foldl init_step st).memo_name
          = st.memo_name ∪ (tasks.map Task.get_name).toFinset := by
  induction tasks generalizing st with
  | nil => simp [file_text, getlines, getlinesFrom]
  | cons t rest ih =>
    have ht : t.name_task ∉ st.memo_name := hnew t (List.mem_cons_self _ _)
    have hnd1 := List.nodup_cons.mp hnd
    rw [getlines_file_text_cons t rest (hnl t (List.mem_cons_self _ _))]
    simp only [List.foldl_cons]
    rw [init_step_pair st t hcnt ht]
    have hrec := ih ⟨0, t.name_task, t.is_done, insert t.name_task st.memo_name, st.tasks ++ [t]⟩
      rfl hnd1.2
      (by
        intro u hu hmem
        rcases Finset.mem_insert.mp hmem with e | e
        · exact hnd1.1 (List.mem_map.mpr ⟨u, hu, e⟩)
        · exact hnew u (List.mem_cons_of_mem _ hu) e)
      (fun u hu => hnl u (List.mem_cons_of_mem _ hu))
    refine ⟨by rw [hrec.1]; simp, ?_⟩
    rw [hrec.2]
    ext x
    simp only [Finset.mem_union, Finset.mem_insert, List.mem_toFinset, List.map_cons,
      List.mem_cons, Task.get_name]
    tauto

end Manage

/-! ### Sorting and removing -/

namespace Manage

theorem parse_int_zero : parse_int "0".toList = 0 := by decide

theorem parse_int_one : parse_int "1".toList = 1 := by decide

theorem sortTask_empty (S : StdSort) (m : Manage) :
    sortTask S [] m = sort_and_save S false m := by
  unfold sortTask
  rw [if_neg (by simp)]

theorem sortTask_zero (S : StdSort) (m : Manage) :
    sortTask S "0".toList m = sort_and_save S false m := by
  unfold sortTask
  rw [if_pos (by decide)]
  simp only [parse_int_zero]
  rfl

theorem sortTask_one (S : StdSort) (m : Manage) :
    sortTask S "1".toList m = sort_and_save S true m := by
  unfold sortTask
  rw [if_pos (by decide)]
  simp only [parse_int_one]
  rfl

theorem tasks_sort_and_save_false (S : StdSort) (m : Manage) :
    (sort_and_save S false m).tasks = S.sort m.tasks := rfl

theorem tasks_sort_and_save_true (S : StdSort) (m : Manage) :
    (sort_and_save S true m).tasks = (S.sort m.tasks).reverse := rfl

theorem undone_first_of_sorted (S : StdSort) (l : List Task) :
    List.Pairwise (fun a b => a.is_done ≤ b.is_done) (S.sort l) := by
  refine List.Pairwise.imp ?_ (S.sorted l)
  intro a b
  unfold Task.lt
  cases a.is_done <;> cases b.is_done <;> simp

theorem sort_pair_undone_done (S : StdSort) (x y : Str) :
    S.sort [⟨x, false⟩, ⟨y, true⟩] = [⟨x, false⟩, ⟨y, true⟩] := by
  have hp := S.perm [⟨x, false⟩, ⟨y, true⟩]
  have hs := S.sorted [⟨x, false⟩, ⟨y, true⟩]
  generalize S.sort [⟨x, false⟩, ⟨y, true⟩] = l at hp hs
  have hlen := hp.length_eq
  match l, hlen with
  | [c, d], _ =>
    have hc : c ∈ [(⟨x, false⟩ : Task), ⟨y, true⟩] := hp.subset (List.mem_cons_self _ _)
    have hcd : Task.lt d c = false := by
      have := List.pairwise_cons.mp hs
      exact this.1 d (List.mem_cons_self _ _)
    rcases List.mem_cons.mp hc with hc | hc
    · subst hc
      have hd : [d] = [(⟨y, true⟩ : Task)] := List.perm_singleton.mp ((List.perm_cons _).mp hp)
      rw [hd]
    · rw [List.mem_singleton] at hc
      subst hc
      have hp2 : List.Perm [(⟨y, true⟩ : Task), d] [⟨y, true⟩, ⟨x, false⟩] :=
        hp.trans (List.Perm.swap _ _ _)
      have hd : [d] = [(⟨x, false⟩ : Task)] := List.perm_singleton.mp ((List.perm_cons _).mp hp2)
      have hd1 : d = ⟨x, false⟩ := List.head_eq_of_cons_eq hd
      subst hd1
      simp [Task.lt] at hcd

theorem remove_task_minus_d (m : Manage) (h : "-d".toList ∉ m.memo_name) :
    remove_task "-d".toList m
      = some (update_file ⟨m.tasks.filter (fun t => !t.isDone),
          m.memo_name \ ((m.tasks.filter (fun t => t.isDone)).map Task.get_name).toFinset,
          m.is_end, m.file, m.out⟩) := by
  unfold remove_task
  rw [if_neg h, if_pos (Or.inl rfl), if_pos rfl]
  simp only [remove_done_loop_eq]

theorem remove_task_minus_r (m : Manage) (h : "-r".toList ∉ m.memo_name) :
    remove_task "-r".toList m = some (update_file ⟨[], ∅, m.is_end, m.file, m.out⟩) := by
  unfold remove_task
  rw [if_neg h, if_pos (Or.inr rfl), if_neg (by decide)]

theorem remove_task_of_known (second_part : Str) (m : Manage) (h : second_part ∈ m.memo_name) :
    remove_task second_part m = remove_at (find_idx_task second_part m.tasks) m := by
  unfold remove_task
  rw [if_pos h]

end Manage

/-! ### Marking twice -/

namespace Manage

theorem find_idx_task_congr (name_task : Str) (l1 l2 : List Task)
    (h : l1.map Task.get_name = l2.map Task.get_name) :
    find_idx_task name_task l1 = find_idx_task name_task l2 := by
  have hlen : l1.length = l2.length := by
    simpa using congrArg List.length h
  have hidx : ∀ (a b : List Task), a.map Task.get_name = b.map Task.get_name →
      a.findIdx (fun t => decide (name_task = t.get_name))
        = b.findIdx (fun t => decide (name_task = t.get_name)) := by
    intro a
    induction a with
    | nil =>
      intro b hb
      cases b with
      | nil => rfl
      | cons y ys => simp at hb
    | cons x xs ih =>
      intro b hb
      cases b with
      | nil => simp at hb
      | cons y ys =>
        simp only [List.map_cons, List.cons.injEq] at hb
        simp only [List.findIdx_cons, hb.1, ih ys hb.2]
  unfold find_idx_task
  rw [hidx l1 l2 h, hlen]

theorem set_same (l : List Task) (i : Nat) (t : Task) (h : l[i]? = some t) :
    l.set i t = l := by
  induction l generalizing i with
  | nil => rfl
  | cons a l ih =>
    cases i with
    | zero =>
      simp only [List.getElem?_cons_zero, Option.some.injEq] at h
      subst h
      rfl
    | succ j =>
      simp only [List.getElem?_cons_succ] at h
      simp [ih j h]

theorem getElem?_set_of_some (l : List Task) (i : Nat) (t u : Task) (h : l[i]? = some t) :
    (l.set i u)[i]? = some u := by
  induction l generalizing i with
  | nil => simp at h
  | cons a l ih =>
    cases i with
    | zero => simp
    | succ j =>
      simp only [List.getElem?_cons_succ] at h
      simpa using ih j h

/-- What `mark_at Task.done` does at an index inside the vector. -/
theorem mark_at_done_eq (id_task : Int) (m : Manage) (t : Task)
    (h : task_at m.tasks id_task = some t) :
    mark_at Task.done id_task m
      = if t.is_done then some (cout "Da fixare".toList m)
        else some (update_file
          ⟨m.tasks.set id_task.toNat ⟨t.name_task, true⟩, m.memo_name, m.is_end, m.file, m.out⟩) := by
  obtain ⟨-, hget⟩ := task_at_eq_some h
  unfold mark_at
  rw [h]
  cases hd : t.is_done
  · simp [Task.done, hd]
  · simp [Task.done, hd, set_same _ _ _ hget, cout]

theorem mark_at_done_twice (id_task : Int) (m m1 : Manage)
    (h : mark_at Task.done id_task m = some m1) :
    mark_at Task.done id_task m1 = some (cout "Da fixare".toList m1)
      ∧ m1.tasks.map Task.get_name = m.tasks.map Task.get_name
      ∧ m1.memo_name = m.memo_name := by
  have hn := names_mark_at get_name_done h
  refine ⟨?_, hn.1, hn.2⟩
  cases hat : task_at m.tasks id_task with
  | none => simp [mark_at, hat] at h
  | some t =>
    obtain ⟨hpos, hget⟩ := task_at_eq_some hat
    rw [mark_at_done_eq id_task m t hat] at h
    cases hd : t.is_done
    · rw [hd] at h
      simp only [Bool.false_eq_true, if_false, Option.some.injEq] at h
      subst h
      have hat1 : task_at (m.tasks.set id_task.toNat ⟨t.name_task, true⟩) id_task
          = some ⟨t.name_task, true⟩ := by
        unfold task_at
        rw [if_neg (by omega)]
        exact getElem?_set_of_some _ _ _ _ hget
      rw [mark_at_done_eq id_task _ _ hat1]
      rfl
    · rw [hd] at h
      simp only [if_true, Option.some.injEq] at h
      subst h
      rw [mark_at_done_eq id_task (cout "Da fixare".toList m) t hat, hd]
      rfl


theorem do_task_twice (x : Str) (m m1 : Manage) (h : do_task x m = some m1) :
    (do_task x m1 = some (cout "Da fixare".toList m1)
      ∨ do_task x m1 = some (print_error "Invalid id_task or name_task".toList m1)) := by
  unfold do_task at h
  simp only at h
  by_cases hx : x ∈ m.memo_name
  · rw [if_pos hx] at h
    obtain ⟨h2, hnames, hmemo⟩ := mark_at_done_twice _ m m1 h
    left
    unfold do_task
    simp only
    rw [if_pos (by rw [hmemo]; exact hx), find_idx_task_congr x m1.tasks m.tasks hnames]
    exact h2
  · rw [if_neg hx] at h
    by_cases hr : (0 : Int) < 0 ∨ (0 : Int) ≥ (m.tasks.length : Int)
    · rw [if_pos hr] at h
      simp only [Option.some.injEq] at h
      subst h
      right
      unfold do_task
      simp only
      have hx1 : x ∉ (print_error "Invalid id_task or name_task".toList m).memo_name := hx
      have hr1 : (0 : Int) < 0
          ∨ (0 : Int) ≥ ((print_error "Invalid id_task or name_task".toList m).tasks.length : Int) :=
        hr
      rw [if_neg hx1, if_pos hr1]
    · rw [if_neg hr] at h
      obtain ⟨h2, hnames, hmemo⟩ := mark_at_done_twice _ m m1 h
      have hlen : m1.tasks.length = m.tasks.length := by
        simpa using congrArg List.length hnames
      left
      unfold do_task
      simp only
      rw [if_neg (by rw [hmemo]; exact hx), if_neg (by rw [hlen]; exact hr)]
      exact h2

end Manage

/-! ### Load against its reference definition -/

namespace Manage

theorem init_step_first (st : InitLoop) (a : Str) (hcnt : st.cnt = 0) :
    init_step st a = ⟨1, a, st.flag, st.memo_name, st.tasks⟩ := by
  simp [init_step, hcnt, NUMBER_ATTRIBUTE_TASK]

theorem init_step_two (st : InitLoop) (a b : Str) (hcnt : st.cnt = 0) :
    init_step (init_step st a) b
      = ⟨0, a, decide (b = "1".toList), insert a st.memo_name,
          if a ∈ st.memo_name then st.tasks else st.tasks ++ [⟨a, decide (b = "1".toList)⟩]⟩ := by
  rw [init_step_first st a hcnt]
  by_cases ha : a ∈ st.memo_name
  · have hcard : (insert a st.memo_name).card = st.memo_name.card := by
      rw [Finset.insert_eq_of_mem ha]
    simp [init_step, NUMBER_ATTRIBUTE_TASK, hcard, ha]
  · have hcard : (insert a st.memo_name).card ≠ st.memo_name.card := by
      rw [Finset.card_insert_of_not_mem ha]
      omega
    simp [init_step, NUMBER_ATTRIBUTE_TASK, hcard, ha]

theorem names_keep_first_of_name (l : List Task) :
    ((keep_first_of_name l).map Task.get_name).toFinset = (l.map Task.get_name).toFinset := by
  induction l with
  | nil => rfl
  | cons t rest ih =>
    ext x
    have hx := congrArg (fun s => x ∈ s) ih
    simp only [List.mem_toFinset, List.mem_map, eq_iff_iff] at hx
    simp only [keep_first_of_name, List.map_cons, List.toFinset_cons, Finset.mem_insert,
      List.mem_toFinset, List.mem_map, List.mem_filter, Task.get_name, decide_eq_true_eq]
    constructor
    · rintro (h | ⟨u, ⟨hu, -⟩, rfl⟩)
      · exact Or.inl h
      · exact Or.inr (hx.mp ⟨u, hu, rfl⟩)
    · rintro (h | h)
      · exact Or.inl h
      · by_cases hxt : x = t.name_task
        · exact Or.inl hxt
        · obtain ⟨u, hu, hux⟩ := hx.mpr h
          exact Or.inr ⟨u, ⟨hu, by rw [show u.name_task = x from hux]; exact hxt⟩, hux⟩

theorem init_loop_reference : ∀ (lines : List Str) (st : InitLoop), st.cnt = 0 →
    (lines.foldl init_step st).tasks
        = st.tasks ++ (load_reference lines).filter (fun u => decide (u.name_task ∉ st.memo_name))
      ∧ (lines.foldl init_step st).memo_name
        = st.memo_name ∪ (((line_pairs lines).map pair_task).map Task.get_name).toFinset
  | [], st, _ => by simp [load_reference, line_pairs, keep_first_of_name]
  | [a], st, hcnt => by
    simp [load_reference, line_pairs, keep_first_of_name, init_step_first st a hcnt]
  | a :: b :: rest, st, hcnt => by
    have ih := init_loop_reference rest
      ⟨0, a, decide (b = "1".toList), insert a st.memo_name,
        if a ∈ st.memo_name then st.tasks else st.tasks ++ [⟨a, decide (b = "1".toList)⟩]⟩ rfl
    simp only [List.foldl_cons, init_step_two st a b hcnt]
    refine ⟨?_, ?_⟩
    · rw [ih.1]
      simp only [load_reference, line_pairs, List.map_cons, keep_first_of_name, pair_task,
        List.filter_cons, List.filter_filter]
      by_cases ha : a ∈ st.memo_name
      · simp only [ha, if_true, not_true_eq_false, decide_False, Bool.false_eq_true, if_false]
        congr 1
        apply List.filter_congr
        intro u _
        simp only [Finset.mem_insert, not_or, Bool.and_eq_true, decide_eq_true_eq, ne_eq,
          Bool.decide_and, Bool.decide_eq_true]
        by_cases hu : u.name_task = a
        · simp [hu, ha]
        · simp [hu]
      · simp only [ha, if_false, not_false_eq_true, decide_True, if_true, List.append_assoc,
          List.singleton_append]
        congr 2
        apply List.filter_congr
        intro u _
        simp only [Finset.mem_insert, not_or, Bool.and_eq_true, decide_eq_true_eq, ne_eq,
          Bool.decide_and]
        by_cases hu : u.name_task = a
        · simp [hu]
        · simp [hu]
    · rw [ih.2]
      ext x
      simp only [line_pairs, List.map_cons, pair_task, Task.get_name, List.toFinset_cons,
        Finset.mem_union, Finset.mem_insert]
      tauto

end Manage

/-! ### Loading a file text followed by more text -/

namespace Manage

theorem getlines_record_append (t : Task) (tail : Str) (h : '\n' ∉ t.name_task) :
    getlines (t.to_string ++ ['\n'] ++ tail)
      = t.name_task :: [if t.is_done then '1' else '0'] :: getlines tail := by
  have hflag : '\n' ∉ [if t.is_done then '1' else '0'] := by
    cases t.is_done <;> decide
  have hshape : t.to_string ++ ['\n'] ++ tail
      = t.name_task ++ '\n' :: ([if t.is_done then '1' else '0'] ++ '\n' :: tail) := by
    simp [Task.to_string]
  unfold getlines
  rw [hshape, getlinesFrom_line _ _ _ h, getlinesFrom_line _ _ _ hflag]
  simp

theorem init_loop_file_text_append (tasks : List Task) (tail : Str) (st : InitLoop)
    (hcnt : st.cnt = 0)
    (hnd : (tasks.map Task.get_name).Nodup)
    (hnew : ∀ t ∈ tasks, t.get_name ∉ st.memo_name)
    (hnl : ∀ t ∈ tasks, '\n' ∉ t.get_name) :
    ∃ st1 : InitLoop, st1.cnt = 0 ∧ st1.tasks = st.tasks ++ tasks
      ∧ st1.memo_name = st.memo_name ∪ (tasks.map Task.get_name).toFinset
      ∧ (getlines (file_text tasks ++ tail)).foldl init_step st
          = (getlines tail).foldl init_step st1 := by
  induction tasks generalizing st with
  | nil => exact ⟨st, hcnt, by simp, by simp, by simp [file_text]⟩
  | cons t rest ih =>
    have ht : t.name_task ∉ st.memo_name := hnew t (List.mem_cons_self _ _)
    have hnd1 := List.nodup_cons.mp hnd
    have hshape : file_text (t :: rest) ++ tail
        = t.to_string ++ ['\n'] ++ (file_text rest ++ tail) := by
      simp [file_text]
    rw [hshape, getlines_record_append t _ (hnl t (List.mem_cons_self _ _))]
    simp only [List.foldl_cons]
    rw [init_step_pair st t hcnt ht]
    obtain ⟨st1, h1, h2, h3, h4⟩ :=
      ih ⟨0, t.name_task, t.is_done, insert t.name_task st.memo_name, st.tasks ++ [t]⟩
        rfl hnd1.2
        (by
          intro u hu hmem
          rcases Finset.mem_insert.mp hmem with e | e
          · exact hnd1.1 (List.mem_map.mpr ⟨u, hu, e⟩)
          · exact hnew u (List.mem_cons_of_mem _ hu) e)
        (fun u hu => hnl u (List.mem_cons_of_mem _ hu))
    refine ⟨st1, h1, by rw [h2]; simp, ?_, h4⟩
    rw [h3]
    ext x
    simp only [Finset.mem_union, Finset.mem_insert, List.mem_toFinset, List.map_cons,
      List.mem_cons, Task.get_name]
    tauto

theorem load_file_text_append (tasks : List Task) (tail : Str)
    (hnd : (tasks.map Task.get_name).Nodup)
    (hnl : ∀ t ∈ tasks, '\n' ∉ t.get_name) :
    ∃ st1 : InitLoop, st1.cnt = 0 ∧ st1.tasks = tasks
      ∧ st1.memo_name = (tasks.map Task.get_name).toFinset
      ∧ (init (fresh (some (file_text tasks ++ tail)))).tasks
          = ((getlines tail).foldl init_step st1).tasks
      ∧ (init (fresh (some (file_text tasks ++ tail)))).memo_name
          = ((getlines tail).foldl init_step st1).memo_name := by
  obtain ⟨st1, h1, h2, h3, h4⟩ := init_loop_file_text_append tasks tail ⟨0, [], false, ∅, []⟩ rfl
    hnd (fun _ _ => Finset.not_mem_empty _) hnl
  refine ⟨st1, h1, by simpa using h2, by simpa using h3, ?_, ?_⟩
  · show ((getlines (file_text tasks ++ tail)).foldl init_step ⟨0, [], false, ∅, []⟩).tasks = _
    rw [h4]
  · show ((getlines (file_text tasks ++ tail)).foldl init_step ⟨0, [], false, ∅, []⟩).memo_name = _
    rw [h4]

end Manage

/-! ### Reading back a decimal number -/

theorem digitChar_isdigit (d : Nat) (h : d < 10) :
    isdigit (Nat.digitChar d) = true ∧ (Nat.digitChar d).toNat - '0'.toNat = d := by
  interval_cases d <;> exact ⟨by decide, by decide⟩

theorem read_digits_toDigitsCore (fuel : Nat) :
    ∀ (n : Nat) (ds : Str), n < fuel →
      ∃ k : Nat, ∀ acc cnt : Nat,
        read_digits acc cnt (Nat.toDigitsCore 10 fuel n ds)
          = read_digits (acc * 10 ^ (k + 1) + n) (cnt + (k + 1)) ds := by
  induction fuel with
  | zero => intro n ds h; omega
  | succ fuel ih =>
    intro n ds hn
    have hd := digitChar_isdigit (n % 10) (Nat.mod_lt _ (by decide))
    by_cases h0 : n / 10 = 0
    · refine ⟨0, fun acc cnt => ?_⟩
      have hn10 : n % 10 = n := Nat.mod_eq_of_lt (by omega)
      simp only [Nat.toDigitsCore, h0, if_true, read_digits, hd.1, hd.2]
      rw [hn10]
      simp
    · obtain ⟨k, hk⟩ := ih (n / 10) (Nat.digitChar (n % 10) :: ds) (by omega)
      refine ⟨k + 1, fun acc cnt => ?_⟩
      simp only [Nat.toDigitsCore, h0, if_false]
      rw [hk acc cnt]
      simp only [read_digits, hd.1, hd.2, if_true]
      congr 1
      · have := Nat.div_add_mod n 10
        rw [pow_succ (10 : Nat) (k + 1)]
        nlinarith [Nat.div_add_mod n 10]

theorem head_toDigitsCore (fuel : Nat) :
    ∀ (n : Nat) (ds : Str), (∃ c rest, ds = c :: rest ∧ isdigit c = true) →
      ∃ c rest, Nat.toDigitsCore 10 fuel n ds = c :: rest ∧ isdigit c = true := by
  induction fuel with
  | zero => intro n ds h; exact h
  | succ fuel ih =>
    intro n ds _
    have hd := digitChar_isdigit (n % 10) (Nat.mod_lt _ (by decide))
    by_cases h0 : n / 10 = 0
    · exact ⟨_, ds, by simp [Nat.toDigitsCore, h0], hd.1⟩
    · simp only [Nat.toDigitsCore, h0, if_false]
      exact ih _ _ ⟨_, ds, rfl, hd.1⟩

theorem head_nat_to_string (n : Nat) :
    ∃ c rest, nat_to_string n = c :: rest ∧ isdigit c = true := by
  have hd := digitChar_isdigit (n % 10) (Nat.mod_lt _ (by decide))
  have hrepr : nat_to_string n = Nat.toDigitsCore 10 (n + 1) n [] := rfl
  rw [hrepr]
  by_cases h0 : n / 10 = 0
  · exact ⟨_, [], by simp [Nat.toDigitsCore, h0], hd.1⟩
  · simp only [Nat.toDigitsCore, h0, if_false]
    exact head_toDigitsCore _ _ _ ⟨_, [], rfl, hd.1⟩

theorem stoi_of_digits (c : Char) (rest : Str) (n k : Nat)
    (hdig : isdigit c = true) (hread : read_digits 0 0 (c :: rest) = (n, k + 1))
    (h : n ≤ 2147483647) :
    stoi (c :: rest) = Except.ok (n : Int) := by
  have hsp : isspace c = false := by
    revert hdig
    unfold isdigit isspace
    intro hdig
    by_contra hne
    simp only [Bool.not_eq_false, Bool.or_eq_true, beq_iff_eq] at hne
    rcases hne with ((((h1 | h1) | h1) | h1) | h1) | h1 <;>
      (subst h1; exact absurd hdig (by decide))
  have hminus : c ≠ '-' := fun e => by subst e; exact absurd hdig (by decide)
  have hplus : c ≠ '+' := fun e => by subst e; exact absurd hdig (by decide)
  have hm : stoi.match_1 (fun _ => Bool × Str) (c :: rest) (fun r => (true, r))
      (fun r => (false, r)) (fun r => (false, r)) = (false, c :: rest) := by
    split
    · rename_i heq
      simp only [List.cons.injEq] at heq
      exact absurd heq.1 hminus
    · rename_i heq
      simp only [List.cons.injEq] at heq
      exact absurd heq.1 hplus
    · rfl
  unfold stoi
  simp only [List.dropWhile_cons, hsp, Bool.false_eq_true, if_false]
  rw [hm]
  simp only [hread]
  have hk1 : ¬ (k + 1 = 0) := by omega
  simp only [hk1, if_false, Bool.false_eq_true]
  rw [if_neg (by omega)]

theorem parse_int_nat_to_string (n : Nat) (h : n ≤ 2147483647) :
    parse_int (nat_to_string n) = (n : Int) := by
  obtain ⟨c, rest, hc, hdig⟩ := head_nat_to_string n
  obtain ⟨k, hk⟩ := read_digits_toDigitsCore (n + 1) n [] (Nat.lt_succ_self n)
  have hrepr : nat_to_string n = Nat.toDigitsCore 10 (n + 1) n [] := rfl
  have hread : read_digits 0 0 (c :: rest) = (n, k + 1) := by
    rw [← hc, hrepr, hk 0 0]
    simp [read_digits]
  unfold parse_int
  rw [hc, stoi_of_digits c rest n k hdig hread h]


namespace Manage

theorem nat_to_string_not_option (i : Nat) :
    ¬ (nat_to_string i = "-d".toList ∨ nat_to_string i = "-r".toList) := by
  obtain ⟨c, rest, hc, hdig⟩ := head_nat_to_string i
  rw [hc]
  rintro (h | h)
  · have hcc : c = '-' := List.head_eq_of_cons_eq h
    subst hcc
    exact absurd hdig (by decide)
  · have hcc : c = '-' := List.head_eq_of_cons_eq h
    subst hcc
    exact absurd hdig (by decide)

theorem remove_at_of_getElem (i : Nat) (t : Task) (m : Manage) (h : m.tasks[i]? = some t) :
    remove_at (i : Int) m
      = some (update_file ⟨m.tasks.eraseIdx i, m.memo_name.erase t.get_name,
          m.is_end, m.file, m.out⟩) := by
  unfold remove_at
  rw [task_at_natCast, h]
  rfl

end Manage

/-! ### The summary of `print_task` -/

namespace Manage

theorem print_task_loop_count (tasks : List Task) (i : Nat) :
    (print_task_loop i tasks).2 = tasks.countP (fun t => t.is_done) := by
  induction tasks generalizing i with
  | nil => rfl
  | cons t rest ih =>
    simp only [print_task_loop, ih, List.countP_cons, Task.isDone]
    exact Nat.add_comm _ _

theorem print_task_out (m : Manage) :
    (print_task m).out
      = m.out ++ task_lines m.tasks
        ++ (if m.tasks.countP (fun t => t.is_done) = m.tasks.length then all_done_text
            else stats_text (m.tasks.length - m.tasks.countP (fun t => t.is_done))
              (m.tasks.countP (fun t => t.is_done))) := by
  unfold print_task
  simp only [print_task_loop_count]
  have hlen : (cout (print_task_loop 0 m.tasks).1 m).tasks = m.tasks := rfl
  rw [hlen]
  split
  · simp [cout, task_lines, all_done_text]
  · simp [cout, task_lines, stats_text]

theorem count_done_eq_length_iff (tasks : List Task) :
    tasks.countP (fun t => t.is_done) = tasks.length ↔ ∀ t ∈ tasks, t.is_done = true := by
  rw [List.countP_eq_length]

theorem stats_text_ne_all_done (a b : Nat) : stats_text a b ≠ all_done_text := by
  intro h
  have hh := congrArg List.head? h
  simp [stats_text, all_done_text] at hh

end Manage

/-! ### The file follows the task list -/

namespace Manage

theorem saved_update_file (m : Manage) : Saved (update_file m) := rfl

theorem saved_of_eq {m m1 : Manage} (ht : m1.tasks = m.tasks) (hf : m1.file = m.file)
    (h : Saved m) : Saved m1 := by
  unfold Saved file_contents at *
  rw [ht, hf]
  exact h

theorem file_foldl_cout (f : Nat → Str) (l : List Nat) (m : Manage) :
    (l.foldl (fun acc i => cout (f i) acc) m).tasks = m.tasks
      ∧ (l.foldl (fun acc i => cout (f i) acc) m).file = m.file := by
  induction l generalizing m with
  | nil => exact ⟨rfl, rfl⟩
  | cons a l ih => simpa [cout] using ih (cout (f a) m)

theorem saved_print_tutorial {m : Manage} (h : Saved m) : Saved (print_tutorial m) := by
  have := file_foldl_cout tutorial_entry (List.range COMMAND.length)
    (cout (['\n'] ++ "\x1b[1;32mTutorial\x1b[0m".toList ++ ['\n']) m)
  exact saved_of_eq (by rw [print_tutorial, this.1]; rfl) (by rw [print_tutorial, this.2]; rfl) h

theorem saved_print_task {m : Manage} (h : Saved m) : Saved (print_task m) := by
  unfold print_task
  simp only
  split
  · exact saved_of_eq rfl rfl h
  · exact saved_of_eq rfl rfl h

theorem saved_add_task (new_task : Str) {m : Manage} (h : Saved m) :
    Saved (add_task new_task m) := by
  unfold add_task
  split
  · exact saved_of_eq rfl rfl h
  · exact saved_update_file _

theorem saved_sortTask (S : StdSort) (option : Str) {m : Manage} (h : Saved m) :
    Saved (sortTask S option m) := by
  unfold sortTask
  split
  · simp only
    split
    · exact saved_update_file _
    · exact saved_of_eq rfl rfl h
  · exact saved_update_file _

theorem saved_remove_at {id_task : Int} {m m1 : Manage}
    (hr : remove_at id_task m = some m1) : Saved m1 := by
  unfold remove_at at hr
  split at hr
  · exact absurd hr (by simp)
  · simp only [Option.some.injEq] at hr
    subst hr
    exact saved_update_file _

theorem saved_remove_task (second_part : Str) {m m1 : Manage} (h : Saved m)
    (hr : remove_task second_part m = some m1) : Saved m1 := by
  unfold remove_task at hr
  simp only at hr
  split at hr
  · exact saved_remove_at hr
  · split at hr
    · split at hr
      · simp only [Option.some.injEq] at hr
        subst hr
        exact saved_update_file _
      · simp only [Option.some.injEq] at hr
        subst hr
        exact saved_update_file _
    · split at hr
      · simp only [Option.some.injEq] at hr
        subst hr
        exact saved_of_eq rfl rfl h
      · exact saved_remove_at hr

theorem saved_mark_at {toggle : Task → Task × Bool} {id_task : Int} {m m1 : Manage}
    (htog : ∀ t, (toggle t).2 = false → (toggle t).1 = t) (h : Saved m)
    (hr : mark_at toggle id_task m = some m1) : Saved m1 := by
  unfold mark_at at hr
  split at hr
  · exact absurd hr (by simp)
  · rename_i t ht
    obtain ⟨-, hget⟩ := task_at_eq_some ht
    simp only at hr
    split at hr
    · rename_i hres
      simp only [Bool.not_eq_true'] at hres
      simp only [Option.some.injEq] at hr
      subst hr
      have hsame : m.tasks.set id_task.toNat (toggle t).1 = m.tasks := by
        rw [htog t hres]
        exact set_same _ _ _ hget
      unfold Saved file_contents at *
      simp only [cout, hsame]
      exact h
    · simp only [Option.some.injEq] at hr
      subst hr
      exact saved_update_file _

theorem done_unchanged (t : Task) (h : (Task.done t).2 = false) : (Task.done t).1 = t := by
  unfold Task.done at *
  split at h
  · rename_i hd
    rw [if_pos hd]
  · simp at h

theorem undo_unchanged (t : Task) (h : (Task.undo t).2 = false) : (Task.undo t).1 = t := by
  unfold Task.undo at *
  split at h
  · simp at h
  · rename_i hd
    rw [if_neg hd]

theorem saved_mark (toggle : Task → Task × Bool) (second_part : Str) {m m1 : Manage}
    (htog : ∀ t, (toggle t).2 = false → (toggle t).1 = t) (h : Saved m)
    (hr : (if second_part ∈ m.memo_name then
             mark_at toggle (find_idx_task second_part m.tasks) m
           else if (0 : Int) < 0 ∨ (0 : Int) ≥ (m.tasks.length : Int) then
             some (print_error "Invalid id_task or name_task".toList m)
           else mark_at toggle 0 m) = some m1) : Saved m1 := by
  split at hr
  · exact saved_mark_at htog h hr
  · split at hr
    · simp only [Option.some.injEq] at hr
      subst hr
      exact saved_of_eq rfl rfl h
    · exact saved_mark_at htog h hr

theorem saved_do_task (second_part : Str) {m m1 : Manage} (h : Saved m)
    (hr : do_task second_part m = some m1) : Saved m1 :=
  saved_mark Task.done second_part done_unchanged h hr

theorem saved_undo_task (second_part : Str) {m m1 : Manage} (h : Saved m)
    (hr : undo_task second_part m = some m1) : Saved m1 :=
  saved_mark Task.undo second_part undo_unchanged h hr

theorem saved_some {m2 : Manage} (h : Saved m2) :
    ∀ m1, some m2 = some m1 → Saved m1 := by
  intro m1 e
  simp only [Option.some.injEq] at e
  subst e
  exact h

theorem saved_process_command (S : StdSort) (command : Str) {m : Manage} (h : Saved m) :
    ∀ m1, process_command S command m = some m1 → Saved m1 := by
  unfold process_command
  simp only
  split
  · intro m1 hr
    exact absurd hr (by simp)
  · refine ite_cases (fun r => ∀ m1, r = some m1 → Saved m1) _ _ _ ?_ ?_
    · exact saved_some (saved_of_eq rfl rfl h)
    refine ite_cases (fun r => ∀ m1, r = some m1 → Saved m1) _ _ _ ?_ ?_
    · exact saved_some (saved_of_eq rfl rfl h)
    refine ite_cases (fun r => ∀ m1, r = some m1 → Saved m1) _ _ _ ?_ ?_
    · exact saved_some (saved_print_task h)
    refine ite_cases (fun r => ∀ m1, r = some m1 → Saved m1) _ _ _ ?_ ?_
    · exact saved_some (saved_of_eq rfl rfl h)
    refine ite_cases (fun r => ∀ m1, r = some m1 → Saved m1) _ _ _ ?_ ?_
    · exact saved_some (saved_sortTask S _ h)
    refine ite_cases (fun r => ∀ m1, r = some m1 → Saved m1) _ _ _ ?_ ?_
    · exact saved_some (saved_print_tutorial h)
    refine ite_cases (fun r => ∀ m1, r = some m1 → Saved m1) _ _ _ ?_ ?_
    · refine ite_cases (fun r => ∀ m1, r = some m1 → Saved m1) _ _ _ ?_ ?_
      · exact saved_some (saved_of_eq rfl rfl h)
      · exact saved_some (saved_add_task _ h)
    refine ite_cases (fun r => ∀ m1, r = some m1 → Saved m1) _ _ _ ?_ ?_
    · refine ite_cases (fun r => ∀ m1, r = some m1 → Saved m1) _ _ _ ?_ ?_
      · exact saved_some (saved_of_eq rfl rfl h)
      · exact fun m1 hr => saved_remove_task _ h hr
    refine ite_cases (fun r => ∀ m1, r = some m1 → Saved m1) _ _ _ ?_ ?_
    · refine ite_cases (fun r => ∀ m1, r = some m1 → Saved m1) _ _ _ ?_ ?_
      · exact saved_some (saved_of_eq rfl rfl h)
      · exact fun m1 hr => saved_do_task _ h hr
    refine ite_cases (fun r => ∀ m1, r = some m1 → Saved m1) _ _ _ ?_ ?_
    · refine ite_cases (fun r => ∀ m1, r = some m1 → Saved m1) _ _ _ ?_ ?_
      · exact saved_some (saved_of_eq rfl rfl h)
      · exact fun m1 hr => saved_undo_task _ h hr
    exact saved_some h

theorem saved_process_commands (S : StdSort) (cmds : List Str) {m m1 : Manage} (h : Saved m)
    (hr : process_commands S cmds m = some m1) : Saved m1 := by
  induction cmds generalizing m with
  | nil =>
    simp only [process_commands, Option.some.injEq] at hr
    subst hr
    exact h
  | cons c rest ih =>
    unfold process_commands at hr
    split at hr
    · exact absurd hr (by simp)
    · rename_i m2 hm2
      exact ih (saved_process_command S c h m2 hm2) hr

end Manage

/-! ### Loading a file that was cut short -/

namespace Manage

theorem prefix_append_cases (p a b : Str) (h : p <+: a ++ b) :
    p <+: a ∨ ∃ q, p = a ++ q ∧ q <+: b := by
  induction a generalizing p with
  | nil => exact Or.inr ⟨p, rfl, h⟩
  | cons x a ih =>
    rw [List.cons_append, List.prefix_cons_iff] at h
    rcases h with h | ⟨t, ht, hpre⟩
    · subst h
      exact Or.inl List.nil_prefix
    · subst ht
      rcases ih t hpre with h1 | ⟨q, hq, hqb⟩
      · exact Or.inl (List.cons_prefix_cons.mpr ⟨rfl, h1⟩)
      · exact Or.inr ⟨q, by rw [hq]; rfl, hqb⟩

theorem getlinesFrom_no_newline (cur p : Str) (h : '\n' ∉ p) :
    getlinesFrom cur p = if cur ++ p = [] then [] else [cur ++ p] := by
  induction p generalizing cur with
  | nil => simp [getlinesFrom]
  | cons c cs ih =>
    have hc : c ≠ '\n' := fun e => h (by simp [e])
    have hcs : '\n' ∉ cs := fun e => h (List.mem_cons_of_mem _ e)
    rw [getlinesFrom, if_neg hc, ih _ hcs]
    simp

theorem tasks_init_step_first (st : InitLoop) (a : Str) (hcnt : st.cnt = 0) :
    (init_step st a).tasks = st.tasks := by
  rw [init_step_first st a hcnt]

/-- Loading a prefix of one record: nothing is added, or the task of the record. -/
theorem init_loop_record_prefix (t : Task) (st : InitLoop) (p : Str)
    (hcnt : st.cnt = 0) (hnew : t.name_task ∉ st.memo_name) (hnl : '\n' ∉ t.name_task)
    (hp : p <+: t.to_string ++ ['\n']) :
    ((getlines p).foldl init_step st).tasks = st.tasks
      ∨ ((getlines p).foldl init_step st).tasks = st.tasks ++ [t] := by
  have hshape : t.to_string ++ ['\n']
      = t.name_task ++ ['\n', if t.is_done then '1' else '0', '\n'] := by
    simp [Task.to_string]
  rw [hshape] at hp
  have hflag : '\n' ∉ [if t.is_done then '1' else '0'] := by
    cases t.is_done <;> decide
  have hname_only : ∀ q : Str, '\n' ∉ q →
      ((getlines q).foldl init_step st).tasks = st.tasks := by
    intro q hq
    unfold getlines
    rw [getlinesFrom_no_newline [] q hq]
    split
    · rfl
    · simp only [List.foldl_cons, List.foldl_nil]
      exact tasks_init_step_first st _ hcnt
  rcases prefix_append_cases p _ _ hp with h | ⟨q, hq, hqpre⟩
  · exact Or.inl (hname_only p (fun e => hnl (h.subset e)))
  · subst hq
    rw [List.prefix_cons_iff] at hqpre
    rcases hqpre with h | ⟨q1, hq1, hpre1⟩
    · subst h
      rw [List.append_nil]
      exact Or.inl (hname_only _ hnl)
    · subst hq1
      rw [List.prefix_cons_iff] at hpre1
      rcases hpre1 with h | ⟨q2, hq2, hpre2⟩
      · subst h
        left
        have hl : getlines (t.name_task ++ ['\n']) = [t.name_task] := by
          unfold getlines
          rw [getlinesFrom_line [] t.name_task [] hnl]
          simp [getlinesFrom]
        rw [hl]
        simp only [List.foldl_cons, List.foldl_nil]
        exact tasks_init_step_first st _ hcnt
      · subst hq2
        right
        have hl : getlines (t.name_task ++ '\n' :: (if t.is_done then '1' else '0') :: q2)
            = [t.name_task, [if t.is_done then '1' else '0']] := by
          rw [List.prefix_cons_iff] at hpre2
          unfold getlines
          rw [getlinesFrom_line [] t.name_task _ hnl]
          rcases hpre2 with h | ⟨q3, hq3, hpre3⟩
          · subst h
            rw [getlinesFrom_no_newline [] _ hflag]
            simp
          · subst hq3
            rw [List.prefix_nil] at hpre3
            subst hpre3
            have := getlinesFrom_line [] [if t.is_done then '1' else '0'] [] hflag
            simp only [List.singleton_append] at this
            rw [this]
            simp [getlinesFrom]
        rw [hl]
        simp only [List.foldl_cons, List.foldl_nil]
        rw [init_step_pair st t hcnt hnew]

theorem init_loop_prefix (tasks : List Task) (st : InitLoop) (p : Str)
    (hcnt : st.cnt = 0)
    (hnd : (tasks.map Task.get_name).Nodup)
    (hnew : ∀ t ∈ tasks, t.get_name ∉ st.memo_name)
    (hnl : ∀ t ∈ tasks, '\n' ∉ t.get_name)
    (hp : p <+: file_text tasks) :
    ∃ k, k ≤ tasks.length
      ∧ ((getlines p).foldl init_step st).tasks = st.tasks ++ tasks.take k := by
  induction tasks generalizing st p with
  | nil =>
    have hp0 : p = [] := by simpa [file_text] using hp
    subst hp0
    exact ⟨0, Nat.le_refl _, by simp [getlines, getlinesFrom]⟩
  | cons t rest ih =>
    have ht : t.name_task ∉ st.memo_name := hnew t (List.mem_cons_self _ _)
    have htnl : '\n' ∉ t.name_task := hnl t (List.mem_cons_self _ _)
    have hnd1 := List.nodup_cons.mp hnd
    have hshape : file_text (t :: rest) = (t.to_string ++ ['\n']) ++ file_text rest := rfl
    rw [hshape] at hp
    rcases prefix_append_cases p _ _ hp with h | ⟨q, hq, hqpre⟩
    · rcases init_loop_record_prefix t st p hcnt ht htnl h with h0 | h1
      · exact ⟨0, Nat.zero_le _, by rw [h0]; simp⟩
      · exact ⟨1, by simp, by rw [h1]; simp⟩
    · subst hq
      rw [getlines_record_append t q htnl]
      simp only [List.foldl_cons]
      rw [init_step_pair st t hcnt ht]
      obtain ⟨k, hk, hres⟩ :=
        ih ⟨0, t.name_task, t.is_done, insert t.name_task st.memo_name, st.tasks ++ [t]⟩ q
          rfl hnd1.2
          (by
            intro u hu hmem
            rcases Finset.mem_insert.mp hmem with e | e
            · exact hnd1.1 (List.mem_map.mpr ⟨u, hu, e⟩)
            · exact hnew u (List.mem_cons_of_mem _ hu) e)
          (fun u hu => hnl u (List.mem_cons_of_mem _ hu))
          hqpre
      exact ⟨k + 1, by simp; omega, by rw [hres]; simp⟩

end Manage

/-! ### The tokenizer against its reference definition -/

namespace Manage

theorem back_append_concat (a : List Str) (l : Str) (x : Char) :
    back_append (a ++ [l]) x = a ++ [l ++ [x]] := by
  simp [back_append]

theorem split_step_space (arr : List Str) (prv : Char) :
    split_step (arr, prv) ' ' = (arr, ' ') := by
  simp [split_step]

theorem split_step_start (arr : List Str) (x : Char) (hx : x ≠ ' ') :
    split_step (arr, ' ') x = (arr ++ [[x]], x) := by
  simp only [split_step, ne_eq, hx, not_false_eq_true, if_true]
  rw [back_append_concat]
  rfl

theorem split_step_continue (init : List Str) (last : Str) (prv x : Char) (hx : x ≠ ' ')
    (hprv : prv ≠ ' ') :
    split_step (init ++ [last], prv) x = (init ++ [last ++ [x]], x) := by
  simp only [split_step, ne_eq, hx, not_false_eq_true, if_true, hprv, if_false]
  rw [back_append_concat]

theorem splitOnP_space_cons (x : Char) (xs : Str) :
    (x :: xs).splitOnP (fun c => c == ' ')
      = if x = ' ' then [] :: xs.splitOnP (fun c => c == ' ')
        else (xs.splitOnP (fun c => c == ' ')).modifyHead (List.cons x) := by
  rw [List.splitOnP_cons]
  by_cases h : x = ' '
  · simp [h]
  · simp [h]

theorem split_fold (cs : Str) : ∀ (arr : List Str) (prv : Char),
    (prv = ' ' →
      (cs.foldl split_step (arr, prv)).1
        = arr ++ (cs.splitOnP (fun c => c == ' ')).filter (fun t => decide (t ≠ [])))
    ∧ (∀ (init : List Str) (last : Str), prv ≠ ' ' → arr = init ++ [last] → last ≠ [] →
        ∀ (r0 : Str) (rs : List Str), cs.splitOnP (fun c => c == ' ') = r0 :: rs →
        (cs.foldl split_step (arr, prv)).1
          = init ++ (last ++ r0) :: rs.filter (fun t => decide (t ≠ []))) := by
  induction cs with
  | nil =>
    intro arr prv
    refine ⟨fun _ => by simp, ?_⟩
    intro init last _ harr _ r0 rs hr
    simp only [List.splitOnP_nil, List.cons.injEq] at hr
    obtain ⟨h0, hrs⟩ := hr
    subst h0 hrs harr
    simp
  | cons x xs ih =>
    intro arr prv
    obtain ⟨r0', rs', hR'⟩ : ∃ r0' rs', xs.splitOnP (fun c => c == ' ') = r0' :: rs' := by
      cases hsp : xs.splitOnP (fun c => c == ' ') with
      | nil => exact absurd hsp (List.splitOnP_ne_nil _ _)
      | cons a b => exact ⟨a, b, rfl⟩
    constructor
    · intro hprv
      subst hprv
      by_cases hx : x = ' '
      · subst hx
        rw [List.foldl_cons, split_step_space, (ih arr ' ').1 rfl, splitOnP_space_cons, if_pos rfl]
        simp
      · rw [List.foldl_cons, split_step_start arr x hx,
          (ih (arr ++ [[x]]) x).2 arr [x] hx rfl (by simp) r0' rs' hR',
          splitOnP_space_cons, if_neg hx, hR']
        simp
    · intro init last hprv harr hlast r0 rs hR
      subst harr
      by_cases hx : x = ' '
      · subst hx
        rw [splitOnP_space_cons, if_pos rfl] at hR
        simp only [List.cons.injEq] at hR
        obtain ⟨h0, hrs⟩ := hR
        subst h0 hrs
        rw [List.foldl_cons, split_step_space, (ih (init ++ [last]) ' ').1 rfl]
        simp
      · rw [splitOnP_space_cons, if_neg hx, hR'] at hR
        simp only [List.modifyHead_cons, List.cons.injEq] at hR
        obtain ⟨h0, hrs⟩ := hR
        subst h0 hrs
        rw [List.foldl_cons, split_step_continue init last prv x hx hprv,
          (ih (init ++ [last ++ [x]]) x).2 init (last ++ [x]) hx rfl (by simp) r0' rs' hR']
        simp

theorem split_eq_reference (command : Str) : split command = tokens_reference command := by
  unfold split tokens_reference List.splitOn
  rw [(split_fold command [] ' ').1 rfl]
  simp

theorem splitOnP_no_space (cs : Str) :
    ∀ t ∈ cs.splitOnP (fun c => c == ' '), ' ' ∉ t := by
  induction cs with
  | nil => simp
  | cons x xs ih =>
    rw [splitOnP_space_cons]
    by_cases hx : x = ' '
    · rw [if_pos hx]
      intro t ht
      rcases List.mem_cons.mp ht with h | h
      · subst h
        simp
      · exact ih t h
    · rw [if_neg hx]
      cases hsp : xs.splitOnP (fun c => c == ' ') with
      | nil => simp
      | cons r0 rs =>
        rw [hsp] at ih
        intro t ht
        simp only [List.modifyHead_cons, List.mem_cons] at ht
        rcases ht with h | h
        · subst h
          intro hmem
          rcases List.mem_cons.mp hmem with e | e
          · exact hx e.symm
          · exact ih r0 (List.mem_cons_self _ _) e
        · exact ih t (List.mem_cons_of_mem _ h)

theorem token_of_split (command : Str) : ∀ t ∈ split command, t ≠ [] ∧ ' ' ∉ t := by
  intro t ht
  rw [split_eq_reference, tokens_reference, List.mem_filter] at ht
  exact ⟨by simpa using ht.2, splitOnP_no_space command t ht.1⟩

theorem join_fold (l : List Str) (init : Str) :
    l.foldl (fun acc p => acc ++ (p ++ " ".toList)) init
      = init ++ (l.map (fun p => p ++ [' '])).flatten := by
  induction l generalizing init with
  | nil => simp
  | cons t rest ih =>
    rw [List.foldl_cons, ih]
    simp

theorem intercalate_cons_cons (t u : Str) (r : List Str) :
    [' '].intercalate (t :: u :: r) = t ++ ' ' :: [' '].intercalate (u :: r) := by
  simp [List.intercalate]

theorem flatten_map_space : ∀ (l : List Str), l ≠ [] →
    (l.map (fun p => p ++ [' '])).flatten = [' '].intercalate l ++ [' ']
  | [], h => absurd rfl h
  | [t], _ => by simp [List.intercalate]
  | t :: u :: r, _ => by
    rw [intercalate_cons_cons, List.map_cons, List.flatten_cons,
      flatten_map_space (u :: r) (by simp)]
    simp

theorem join_rest_eq_intercalate (rest : List Str) :
    join_rest rest = [' '].intercalate rest := by
  unfold join_rest
  by_cases h : rest = []
  · subst h
    rfl
  · have hlen : rest.length > 0 := List.length_pos.mpr h
    rw [if_pos hlen, join_fold, flatten_map_space rest h]
    simp

theorem no_double_space_of_no_space (t : Str) (h : ' ' ∉ t) : no_double_space t := by
  unfold no_double_space
  induction t with
  | nil => exact List.chain'_nil
  | cons a t ih =>
    rw [List.chain'_cons']
    refine ⟨?_, ih (fun e => h (List.mem_cons_of_mem _ e))⟩
    intro y _ hy
    exact h (by rw [hy.1]; exact List.mem_cons_self _ _)

theorem head?_of_no_space (t : Str) (h : ' ' ∉ t) : t.head? ≠ some ' ' := by
  intro e
  exact h (List.mem_of_mem_head? e)

theorem getLast?_of_no_space (t : Str) (h : ' ' ∉ t) : t.getLast? ≠ some ' ' := by
  intro e
  exact h (List.mem_of_mem_getLast? e)

theorem intercalate_tokens : ∀ (l : List Str), l ≠ [] → (∀ t ∈ l, t ≠ [] ∧ ' ' ∉ t) →
    [' '].intercalate l ≠ []
      ∧ ([' '].intercalate l).head? ≠ some ' '
      ∧ ([' '].intercalate l).getLast? ≠ some ' '
      ∧ no_double_space ([' '].intercalate l)
  | [], h, _ => absurd rfl h
  | [t], _, ht => by
    have h1 := ht t (List.mem_cons_self _ _)
    have he : [' '].intercalate [t] = t := by simp [List.intercalate]
    rw [he]
    exact ⟨h1.1, head?_of_no_space t h1.2, getLast?_of_no_space t h1.2,
      no_double_space_of_no_space t h1.2⟩
  | t :: u :: r, _, ht => by
    have h1 := ht t (List.mem_cons_self _ _)
    obtain ⟨ih1, ih2, ih3, ih4⟩ := intercalate_tokens (u :: r) (by simp)
      (fun v hv => ht v (List.mem_cons_of_mem _ hv))
    rw [intercalate_cons_cons]
    refine ⟨by simp, ?_, ?_, ?_⟩
    · rw [List.head?_append]
      cases ht0 : t with
      | nil => exact absurd ht0 h1.1
      | cons a t1 =>
        intro e
        simp only [List.head?_cons, Option.or_some, Option.some.injEq] at e
        exact h1.2 (by rw [ht0, e]; exact List.mem_cons_self _ _)
    · generalize [' '].intercalate (u :: r) = A at ih1 ih3 ⊢
      cases A with
      | nil => exact absurd rfl ih1
      | cons d A1 =>
        rw [List.getLast?_append, List.getLast?_cons_cons]
        cases hl : (d :: A1).getLast? with
        | none => simp at hl
        | some c =>
          rw [hl] at ih3
          simpa using ih3
    · unfold no_double_space at *
      refine List.Chain'.append (no_double_space_of_no_space t h1.2) ?_ ?_
      · rw [List.chain'_cons']
        refine ⟨?_, ih4⟩
        intro y hy hh
        exact ih2 (by rw [Option.mem_def] at hy; rw [hy, hh.2])
      · intro x hx y _ hh
        exact getLast?_of_no_space t h1.2 (by rw [Option.mem_def] at hx; rw [hx, hh.1])

end Manage

/-! ### Lines without a token -/

namespace Manage

theorem intercalate_of_empty : ∀ (l : List Str), (∀ t ∈ l, t = []) →
    ∀ c ∈ [' '].intercalate l, c = ' '
  | [], _ => by simp [List.intercalate]
  | [t], h => by
    have ht := h t (List.mem_cons_self _ _)
    subst ht
    simp [List.intercalate]
  | t :: u :: r, h => by
    have ht := h t (List.mem_cons_self _ _)
    subst ht
    rw [intercalate_cons_cons]
    intro c hc
    simp only [List.nil_append, List.mem_cons] at hc
    rcases hc with e | e
    · exact e
    · exact intercalate_of_empty (u :: r) (fun v hv => h v (List.mem_cons_of_mem _ hv)) c e

/-- A line with a character other than a space has a first token. -/
theorem split_ne_nil_of_non_space (command : Str) (h : ∃ c ∈ command, c ≠ ' ') :
    split command ≠ [] := by
  intro hnil
  rw [split_eq_reference, tokens_reference, List.filter_eq_nil_iff] at hnil
  have hall : ∀ t ∈ command.splitOn ' ', t = [] := by
    intro t ht
    have := hnil t ht
    simpa using this
  have hsp := intercalate_of_empty _ hall
  rw [List.intercalate_splitOn] at hsp
  obtain ⟨c, hc, hne⟩ := h
  exact hne (hsp c hc)

end Manage

/-! ### The written text against the reference serialization -/

namespace Manage

theorem file_text_eq_reference (tasks : List Task) :
    file_text tasks = serialization_reference tasks := by
  induction tasks with
  | nil => rfl
  | cons t rest ih =>
    have hstep : serialization_reference (t :: rest)
        = (t.name_task ++ ['\n']) ++ ((if t.is_done then ['1'] else ['0']) ++ ['\n'])
          ++ serialization_reference rest := by
      simp [serialization_reference, record_lines]
    rw [hstep, ← ih]
    cases hd : t.is_done <;> simp [file_text, Task.to_string, hd]

end Manage

/-! ### A blank line after each record -/

namespace Manage

theorem tasks_init_step_extends (st : InitLoop) (line : Str) :
    ∃ x, (init_step st line).tasks = st.tasks ++ x := by
  unfold init_step
  simp only
  repeat' split
  all_goals first
    | exact ⟨_, rfl⟩
    | exact ⟨[], (List.append_nil _).symm⟩

theorem tasks_init_loop_extends (lines : List Str) (st : InitLoop) :
    ∃ x, (lines.foldl init_step st).tasks = st.tasks ++ x := by
  induction lines generalizing st with
  | nil => exact ⟨[], by simp⟩
  | cons l rest ih =>
    obtain ⟨x, hx⟩ := tasks_init_step_extends st l
    obtain ⟨y, hy⟩ := ih (init_step st l)
    exact ⟨x ++ y, by rw [List.foldl_cons, hy, hx, List.append_assoc]⟩

theorem getlines_newline_cons (s : Str) : getlines ('\n' :: s) = [] :: getlines s := by
  unfold getlines
  rw [getlinesFrom, if_pos rfl]

/-- With a blank line after each record, the second task that is loaded has
the empty name. -/
theorem load_blank_two (t1 t2 : Task) (rest : List Task)
    (h1 : t1.name_task ≠ []) (hnl1 : '\n' ∉ t1.name_task) (hnl2 : '\n' ∉ t2.name_task) :
    ∃ (flag : Bool) (x : List Task),
      (init (fresh (some (file_text_blank (t1 :: t2 :: rest))))).tasks
        = t1 :: ⟨[], flag⟩ :: x := by
  have hshape : file_text_blank (t1 :: t2 :: rest)
      = t1.to_string ++ ['\n']
        ++ ('\n' :: (t2.to_string ++ ['\n'] ++ ('\n' :: file_text_blank rest))) := by
    simp [file_text_blank]
  have hlines : getlines (file_text_blank (t1 :: t2 :: rest))
      = t1.name_task :: [if t1.is_done then '1' else '0'] :: [] :: t2.name_task
        :: ([if t2.is_done then '1' else '0'] :: getlines ('\n' :: file_text_blank rest)) := by
    rw [hshape, getlines_record_append t1 _ hnl1, getlines_newline_cons,
      getlines_record_append t2 _ hnl2]
  have hmem : ([] : Str) ∉ insert t1.name_task (∅ : Finset Str) := by
    simp only [Finset.mem_insert, Finset.not_mem_empty, or_false]
    exact fun e => h1 e.symm
  obtain ⟨x, hx⟩ := tasks_init_loop_extends
    ([if t2.is_done then '1' else '0'] :: getlines ('\n' :: file_text_blank rest))
    (init_step (init_step (init_step (init_step ⟨0, [], false, ∅, []⟩ t1.name_task)
      [if t1.is_done then '1' else '0']) []) t2.name_task)
  refine ⟨decide (t2.name_task = "1".toList), x, ?_⟩
  show ((getlines (file_text_blank (t1 :: t2 :: rest))).foldl init_step
    ⟨0, [], false, ∅, []⟩).tasks = _
  rw [hlines]
  simp only [List.foldl_cons] at hx ⊢
  rw [hx, init_step_pair ⟨0, [], false, ∅, []⟩ t1 rfl (Finset.not_mem_empty _),
    init_step_two _ [] t2.name_task rfl]
  simp only [if_neg hmem]
  simp

end Manage

/-! ### Equal flags after sorting -/

namespace Manage

end Manage

/-! ## The claims -/

open Manage

/-- C1: for every sequence of command lines that `process_command` can read a
first token from (every `add`, `rm`, `do`, `undo`, `sort`, `ls`, `man` and
`clear` line is one), started on an empty task list and an empty name set,
after each command the run has a state in which `memo_name` is the set of the
names in `tasks`, no name occurs twice, and the set is as large as the
sequence is long. -/
theorem C1_names_in_sync_after_every_command (S : StdSort) (cmds : List Str) (m0 : Manage)
    (h0 : m0.tasks = [] ∧ m0.memo_name = ∅)
    (hcmds : ∀ c ∈ cmds, split (to_lowercase c) ≠ []) (k : Nat) :
    ∃ m, process_commands S (cmds.take k) m0 = some m
      ∧ m.memo_name = (m.tasks.map Task.get_name).toFinset
      ∧ (m.tasks.map Task.get_name).Nodup
      ∧ m.memo_name.card = m.tasks.length := by
  have hinv0 : Inv m0 := by
    unfold Inv
    rw [h0.1, h0.2]
    exact ⟨List.nodup_nil, rfl⟩
  obtain ⟨m, hm, hnd, hmemo⟩ := inv_process_commands S (cmds.take k) hinv0
    (fun c hc => hcmds c (List.mem_of_mem_take hc))
  refine ⟨m, hm, hmemo, hnd, ?_⟩
  rw [hmemo, List.toFinset_card_of_nodup hnd, List.length_map]

/-- C1, on the run `add a`, `add b`, `do 1`, `rm -d`, `sort 1`. -/
theorem C1_names_in_sync_witness :
    ∃ m, process_commands insertionStdSort
        (["add a".toList, "add b".toList, "do 1".toList, "rm -d".toList, "sort 1".toList].take 4)
        (fresh none) = some m
      ∧ m.memo_name = (m.tasks.map Task.get_name).toFinset
      ∧ (m.tasks.map Task.get_name).Nodup
      ∧ m.memo_name.card = m.tasks.length :=
  C1_names_in_sync_after_every_command insertionStdSort
    ["add a".toList, "add b".toList, "do 1".toList, "rm -d".toList, "sort 1".toList]
    (fresh none) ⟨rfl, rfl⟩ (by decide) 4

/-- C2: for every task list whose names are pairwise distinct and free of
newlines, `init` on a new object reads back, from the text `update_file`
wrote, the same tasks in the same order, and the name set of their names. -/
theorem C2_save_load_round_trip (m : Manage)
    (hnd : (m.tasks.map Task.get_name).Nodup)
    (hnl : ∀ t ∈ m.tasks, '\n' ∉ t.get_name) :
    (init (fresh (update_file m).file)).tasks = m.tasks
      ∧ (init (fresh (update_file m).file)).memo_name
          = (m.tasks.map Task.get_name).toFinset := by
  have h := init_loop_file_text m.tasks ⟨0, [], false, ∅, []⟩ rfl hnd
    (fun _ _ => Finset.not_mem_empty _) hnl
  simp only [List.nil_append, Finset.empty_union] at h
  exact h

/-- C2, on the list of the done task `a` and the undone task `b c`. -/
theorem C2_save_load_round_trip_witness :
    (init (fresh (update_file
        ⟨[⟨"a".toList, true⟩, ⟨"b c".toList, false⟩], ∅, false, none, []⟩).file)).tasks
      = [⟨"a".toList, true⟩, ⟨"b c".toList, false⟩]
    ∧ (init (fresh (update_file
        ⟨[⟨"a".toList, true⟩, ⟨"b c".toList, false⟩], ∅, false, none, []⟩).file)).memo_name
      = ([⟨"a".toList, true⟩, ⟨"b c".toList, false⟩].map Task.get_name).toFinset :=
  C2_save_load_round_trip ⟨[⟨"a".toList, true⟩, ⟨"b c".toList, false⟩], ∅, false, none, []⟩
    (by decide) (by decide)

/-- C3, the code at the scenario of the claim: after `add a`, `add b`, `do 1`
the task at index 0 (`a`) is done and the task at index 1 (`b`) is not, and
after `add a`, `add b`, `do a`, `do b`, `undo 1` it is `a` that is undone
again: `do_task` and `undo_task` never parse their argument, the index stays
at its initial value 0. -/
theorem C3_do_with_index_marks_task_zero :
    (process_commands insertionStdSort ["add a".toList, "add b".toList, "do 1".toList]
        (fresh none)).map Manage.tasks
      = some [⟨"a".toList, true⟩, ⟨"b".toList, false⟩]
    ∧ (process_commands insertionStdSort
        ["add a".toList, "add b".toList, "do a".toList, "do b".toList, "undo 1".toList]
        (fresh none)).map Manage.tasks
      = some [⟨"a".toList, false⟩, ⟨"b".toList, true⟩] := by
  constructor <;> decide

/-- C4, the code at an argument that is neither a name nor an index: on the
store holding the undone task `a`, `do zzz` prints no error, marks `a` done and
rewrites the file; on the store holding the done task `a`, `undo zzz` marks it
undone and rewrites the file. -/
theorem C4_do_with_unknown_target_marks_task_zero :
    do_task "zzz".toList ⟨[⟨"a".toList, false⟩], {"a".toList}, false, some "a\n0\n".toList, []⟩
      = some ⟨[⟨"a".toList, true⟩], {"a".toList}, false, some "a\n1\n".toList, []⟩
    ∧ undo_task "zzz".toList
        ⟨[⟨"a".toList, true⟩], {"a".toList}, false, some "a\n1\n".toList, []⟩
      = some ⟨[⟨"a".toList, false⟩], {"a".toList}, false, some "a\n0\n".toList, []⟩ := by
  constructor <;> decide

/-- C5 fails as stated: on the store `-r`, `x` (both undone) `rm -r` removes
only the task named `-r` and leaves `x`, and on the store `-d` (undone), `y`
(done) `rm -d` removes the task named `-d` and leaves the done task `y`. -/
theorem C5_option_literal_that_is_a_name :
    (remove_task "-r".toList
        ⟨[⟨"-r".toList, false⟩, ⟨"x".toList, false⟩], {"-r".toList, "x".toList}, false,
          some "-r\n0\nx\n0\n".toList, []⟩
      = some ⟨[⟨"x".toList, false⟩], {"x".toList}, false, some "x\n0\n".toList, []⟩)
    ∧ (remove_task "-d".toList
        ⟨[⟨"-d".toList, false⟩, ⟨"y".toList, true⟩], {"-d".toList, "y".toList}, false,
          some "-d\n0\ny\n1\n".toList, []⟩
      = some ⟨[⟨"y".toList, true⟩], {"y".toList}, false, some "y\n1\n".toList, []⟩) := by
  constructor <;> decide

/-- C5, amended: on every store whose name set does not hold `-r`,
`remove_task` with `-r` empties the task sequence and the name set; on every
store whose name set does not hold `-d`, `remove_task` with `-d` keeps exactly
the undone tasks and takes the names of the done ones out of the set; and an
argument that is a known name, the two literals included, removes the task
found by name lookup. -/
theorem C5_rm_options_after_name_lookup (m : Manage) :
    ("-r".toList ∉ m.memo_name →
      ∃ m1, remove_task "-r".toList m = some m1 ∧ m1.tasks = [] ∧ m1.memo_name = ∅)
    ∧ ("-d".toList ∉ m.memo_name →
      ∃ m1, remove_task "-d".toList m = some m1
        ∧ m1.tasks = m.tasks.filter (fun t => !t.isDone)
        ∧ (∀ t ∈ m1.tasks, t.isDone = false)
        ∧ m1.memo_name
            = m.memo_name \ ((m.tasks.filter (fun t => t.isDone)).map Task.get_name).toFinset)
    ∧ (∀ second_part, second_part ∈ m.memo_name →
        remove_task second_part m = remove_at (find_idx_task second_part m.tasks) m) := by
  refine ⟨?_, ?_, ?_⟩
  · intro h
    exact ⟨_, remove_task_minus_r m h, rfl, rfl⟩
  · intro h
    refine ⟨_, remove_task_minus_d m h, rfl, ?_, rfl⟩
    intro t ht
    have := (List.mem_filter.mp ht).2
    simpa using this
  · intro second_part h
    exact remove_task_of_known second_part m h

/-- C5 amended, on the store `a` (done), `b` (undone). -/
theorem C5_rm_options_witness :
    (∃ m1, remove_task "-r".toList
        ⟨[⟨"a".toList, true⟩, ⟨"b".toList, false⟩], {"a".toList, "b".toList}, false, none, []⟩
        = some m1 ∧ m1.tasks = [] ∧ m1.memo_name = ∅)
    ∧ (∃ m1, remove_task "-d".toList
        ⟨[⟨"a".toList, true⟩, ⟨"b".toList, false⟩], {"a".toList, "b".toList}, false, none, []⟩
        = some m1
        ∧ m1.tasks = [⟨"b".toList, false⟩]
        ∧ (∀ t ∈ m1.tasks, t.isDone = false)
        ∧ m1.memo_name = ({"a".toList, "b".toList} : Finset Str) \ {"a".toList})
    ∧ remove_task "a".toList
        ⟨[⟨"a".toList, true⟩, ⟨"b".toList, false⟩], {"a".toList, "b".toList}, false, none, []⟩
      = remove_at 0
        ⟨[⟨"a".toList, true⟩, ⟨"b".toList, false⟩], {"a".toList, "b".toList}, false, none, []⟩ :=
  ⟨(C5_rm_options_after_name_lookup
      ⟨[⟨"a".toList, true⟩, ⟨"b".toList, false⟩], {"a".toList, "b".toList}, false, none, []⟩).1
      (by decide),
   (C5_rm_options_after_name_lookup
      ⟨[⟨"a".toList, true⟩, ⟨"b".toList, false⟩], {"a".toList, "b".toList}, false, none, []⟩).2.1
      (by decide),
   (C5_rm_options_after_name_lookup
      ⟨[⟨"a".toList, true⟩, ⟨"b".toList, false⟩], {"a".toList, "b".toList}, false, none, []⟩).2.2
      "a".toList (by decide)⟩

/-- C6: `add_task` on a name the name set holds writes the error
`Task already exists` and changes neither the tasks, the name set nor the
file; on any other name the tasks are the old ones followed by the new task,
undone, the name set is the old one plus the name, and the file is rewritten
from the new list. -/
theorem C6_add_task (new_task : Str) (m : Manage) :
    (new_task ∈ m.memo_name →
      (add_task new_task m).tasks = m.tasks
      ∧ (add_task new_task m).memo_name = m.memo_name
      ∧ (add_task new_task m).file = m.file
      ∧ (add_task new_task m).out
          = m.out ++ colored_text Color.red false true "Task already exists".toList)
    ∧ (new_task ∉ m.memo_name →
      (add_task new_task m).tasks = m.tasks ++ [⟨new_task, false⟩]
      ∧ (add_task new_task m).memo_name = insert new_task m.memo_name
      ∧ (add_task new_task m).file = some (file_text (m.tasks ++ [⟨new_task, false⟩]))
      ∧ (add_task new_task m).out = m.out) := by
  constructor
  · intro h
    unfold add_task
    rw [if_pos h]
    exact ⟨rfl, rfl, rfl, rfl⟩
  · intro h
    unfold add_task
    rw [if_neg h]
    exact ⟨rfl, rfl, rfl, rfl⟩

/-- C6, on the scenario `add a` ; `add a`: the second command finds the name
and leaves exactly one task named `a`; the first one appended it. -/
theorem C6_add_task_witness :
    ((add_task "a".toList (add_task "a".toList (fresh none))).tasks = [⟨"a".toList, false⟩]
      ∧ (add_task "a".toList (add_task "a".toList (fresh none))).memo_name = {"a".toList}
      ∧ (add_task "a".toList (add_task "a".toList (fresh none))).file = some "a\n0\n".toList
      ∧ (add_task "a".toList (add_task "a".toList (fresh none))).out
          = [] ++ colored_text Color.red false true "Task already exists".toList)
    ∧ ((add_task "a".toList (fresh none)).tasks = [] ++ [⟨"a".toList, false⟩]
      ∧ (add_task "a".toList (fresh none)).memo_name = insert "a".toList ∅
      ∧ (add_task "a".toList (fresh none)).file
          = some (file_text ([] ++ [⟨"a".toList, false⟩]))
      ∧ (add_task "a".toList (fresh none)).out = []) :=
  ⟨(C6_add_task "a".toList (add_task "a".toList (fresh none))).1 (by decide),
   (C6_add_task "a".toList (fresh none)).2 (by decide)⟩

/-- C7: whatever `std::sort` does within its contract, `sortTask` with the
option `""` or `"0"` leaves a permutation of the tasks in which every undone
task precedes every done one (`a.is_done ≤ b.is_done` for `a` before `b`), and
with the option `"1"` a permutation in which every done task precedes every
undone one; and `add x` ; `add y` ; `do y` ; `sort 1` gives `y`, `x`. -/
theorem C7_sort_orders_by_flag (S : StdSort) (m : Manage) :
    (List.Perm (sortTask S [] m).tasks m.tasks
      ∧ List.Pairwise (fun a b => a.is_done ≤ b.is_done) (sortTask S [] m).tasks)
    ∧ (List.Perm (sortTask S "0".toList m).tasks m.tasks
      ∧ List.Pairwise (fun a b => a.is_done ≤ b.is_done) (sortTask S "0".toList m).tasks)
    ∧ (List.Perm (sortTask S "1".toList m).tasks m.tasks
      ∧ List.Pairwise (fun a b => b.is_done ≤ a.is_done) (sortTask S "1".toList m).tasks)
    ∧ (process_commands S ["add x".toList, "add y".toList, "do y".toList, "sort 1".toList]
        (fresh none)).map Manage.tasks
      = some [⟨"y".toList, true⟩, ⟨"x".toList, false⟩] := by
  refine ⟨?_, ?_, ?_, ?_⟩
  · rw [sortTask_empty, tasks_sort_and_save_false]
    exact ⟨S.perm _, undone_first_of_sorted S _⟩
  · rw [sortTask_zero, tasks_sort_and_save_false]
    exact ⟨S.perm _, undone_first_of_sorted S _⟩
  · rw [sortTask_one, tasks_sort_and_save_true]
    exact ⟨(List.reverse_perm _).trans (S.perm _),
      List.pairwise_reverse.mpr (undone_first_of_sorted S _)⟩
  · have h1 : process_command S "add x".toList (fresh none)
        = some ⟨[⟨"x".toList, false⟩], {"x".toList}, false, some "x\n0\n".toList, []⟩ := rfl
    have h2 : process_command S "add y".toList
          ⟨[⟨"x".toList, false⟩], {"x".toList}, false, some "x\n0\n".toList, []⟩
        = some ⟨[⟨"x".toList, false⟩, ⟨"y".toList, false⟩], {"y".toList, "x".toList}, false,
            some "x\n0\ny\n0\n".toList, []⟩ := rfl
    have h3 : process_command S "do y".toList
          ⟨[⟨"x".toList, false⟩, ⟨"y".toList, false⟩], {"y".toList, "x".toList}, false,
            some "x\n0\ny\n0\n".toList, []⟩
        = some ⟨[⟨"x".toList, false⟩, ⟨"y".toList, true⟩], {"y".toList, "x".toList}, false,
            some "x\n0\ny\n1\n".toList, []⟩ := rfl
    have h4 : process_command S "sort 1".toList
          ⟨[⟨"x".toList, false⟩, ⟨"y".toList, true⟩], {"y".toList, "x".toList}, false,
            some "x\n0\ny\n1\n".toList, []⟩
        = some (sortTask S "1".toList
            ⟨[⟨"x".toList, false⟩, ⟨"y".toList, true⟩], {"y".toList, "x".toList}, false,
              some "x\n0\ny\n1\n".toList, []⟩) := rfl
    simp only [process_commands, h1, h2, h3, h4]
    rw [sortTask_one, Option.map_some', tasks_sort_and_save_true]
    simp only [sort_pair_undone_done]
    rfl

/-- C9: on every store that satisfies the uniqueness invariant and has no
task named `-d`, `rm -d` leaves as task sequence the undone tasks in their
order and as name set the set of their names. -/
theorem C9_rm_done_keeps_undone (m : Manage) (hinv : Inv m)
    (hd : "-d".toList ∉ m.tasks.map Task.get_name) :
    ∃ m1, remove_task "-d".toList m = some m1
      ∧ m1.tasks = m.tasks.filter (fun t => !t.is_done)
      ∧ m1.memo_name = ((m.tasks.filter (fun t => !t.is_done)).map Task.get_name).toFinset := by
  have hmemo : "-d".toList ∉ m.memo_name := by
    rw [hinv.2, List.mem_toFinset]
    exact hd
  refine ⟨_, remove_task_minus_d m hmemo, rfl, ?_⟩
  simp only [update_file]
  rw [hinv.2]
  exact names_undone_of_nodup m.tasks hinv.1

/-- C9, on the scenario: the store after `add a` ; `add b` ; `do a` holds `a`
done and `b` undone, and `rm -d` leaves the single task `b`, at index 0. -/
theorem C9_rm_done_witness :
    (process_commands insertionStdSort ["add a".toList, "add b".toList, "do a".toList]
        (fresh none)
      = some ⟨[⟨"a".toList, true⟩, ⟨"b".toList, false⟩], {"b".toList, "a".toList}, false,
          some "a\n1\nb\n0\n".toList, []⟩)
    ∧ ∃ m1, remove_task "-d".toList
          ⟨[⟨"a".toList, true⟩, ⟨"b".toList, false⟩], {"b".toList, "a".toList}, false,
            some "a\n1\nb\n0\n".toList, []⟩ = some m1
      ∧ m1.tasks = [⟨"b".toList, false⟩]
      ∧ m1.memo_name = {"b".toList} :=
  ⟨by decide,
   C9_rm_done_keeps_undone
    ⟨[⟨"a".toList, true⟩, ⟨"b".toList, false⟩], {"b".toList, "a".toList}, false,
      some "a\n1\nb\n0\n".toList, []⟩
    ⟨by decide, by decide⟩ (by decide)⟩

/-- C10: on every store that satisfies the uniqueness invariant, for every
name the name set does not hold, `add_task` of the name followed by
`remove_task` of the name gives back the task sequence and the name set. -/
theorem C10_add_then_rm_restores (m : Manage) (hinv : Inv m) (n : Str)
    (hn : n ∉ m.memo_name) :
    ∃ m1, remove_task n (add_task n m) = some m1
      ∧ m1.tasks = m.tasks ∧ m1.memo_name = m.memo_name := by
  have hnames : n ∉ m.tasks.map Task.get_name := by
    rw [hinv.2, List.mem_toFinset] at hn
    exact hn
  have hadd : add_task n m
      = update_file ⟨m.tasks ++ [Task.mk1 n], insert n m.memo_name, m.is_end, m.file, m.out⟩ := by
    unfold add_task
    rw [if_neg hn]
  have hidx : find_idx_task n (m.tasks ++ [Task.mk1 n]) = (m.tasks.length : Int) :=
    find_idx_task_append_new n m.tasks (Task.mk1 n) hnames rfl
  have hrm : remove_task n (add_task n m)
      = remove_at (m.tasks.length : Int) (add_task n m) := by
    rw [remove_task_of_known n (add_task n m) (by rw [hadd]; exact Finset.mem_insert_self _ _)]
    rw [hadd]
    exact congrArg (fun i => remove_at i _) hidx
  have hat : task_at (add_task n m).tasks (m.tasks.length : Int) = some (Task.mk1 n) := by
    rw [hadd, task_at_natCast]
    exact List.getElem?_concat_length _ _
  refine ⟨_, by rw [hrm]; unfold remove_at; rw [hat], ?_, ?_⟩
  · rw [hadd]
    simp only [update_file, Int.toNat_ofNat]
    rw [List.eraseIdx_append_of_length_le (Nat.le_refl _)]
    simp
  · rw [hadd]
    simp only [update_file, Task.mk1, Task.get_name]
    exact Finset.erase_insert hn

/-- C10, on the store `a` (done) and the new name `b`. -/
theorem C10_add_then_rm_witness :
    ∃ m1, remove_task "b".toList (add_task "b".toList
        ⟨[⟨"a".toList, true⟩], {"a".toList}, false, some "a\n1\n".toList, []⟩) = some m1
      ∧ m1.tasks = [⟨"a".toList, true⟩] ∧ m1.memo_name = {"a".toList} :=
  C10_add_then_rm_restores
    ⟨[⟨"a".toList, true⟩], {"a".toList}, false, some "a\n1\n".toList, []⟩
    ⟨by decide, by decide⟩ "b".toList (by decide)

/-- C11: whenever `do_task` with an argument has run on a store, running it
again with the same argument changes neither the task sequence, the name set
nor the file: the second call only writes the notice (the target is done
already, the file is not rewritten) or, on an empty list, the error message.
On every store that satisfies the uniqueness invariant the first call does run. -/
theorem C11_do_is_idempotent (x : Str) (m : Manage) :
    (∀ m1, do_task x m = some m1 →
      ∃ m2, do_task x m1 = some m2
        ∧ m2.tasks = m1.tasks ∧ m2.memo_name = m1.memo_name ∧ m2.file = m1.file
        ∧ (m2 = cout "Da fixare".toList m1
            ∨ m2 = print_error "Invalid id_task or name_task".toList m1))
    ∧ (Inv m → ∃ m1, do_task x m = some m1) := by
  constructor
  · intro m1 h
    rcases do_task_twice x m m1 h with h2 | h2
    · exact ⟨_, h2, rfl, rfl, rfl, Or.inl rfl⟩
    · exact ⟨_, h2, rfl, rfl, rfl, Or.inr rfl⟩
  · intro hinv
    obtain ⟨m1, hm1, -⟩ := inv_do_task x hinv
    exact ⟨m1, hm1⟩

/-- C11, on the store holding the undone task `a`: `do a` marks it and
rewrites the file, a second `do a` leaves tasks, names and file as they are. -/
theorem C11_do_is_idempotent_witness :
    (∃ m2, do_task "a".toList
        ⟨[⟨"a".toList, true⟩], {"a".toList}, false, some "a\n1\n".toList, []⟩ = some m2
      ∧ m2.tasks = [⟨"a".toList, true⟩] ∧ m2.memo_name = {"a".toList}
      ∧ m2.file = some "a\n1\n".toList
      ∧ (m2 = cout "Da fixare".toList
            ⟨[⟨"a".toList, true⟩], {"a".toList}, false, some "a\n1\n".toList, []⟩
          ∨ m2 = print_error "Invalid id_task or name_task".toList
            ⟨[⟨"a".toList, true⟩], {"a".toList}, false, some "a\n1\n".toList, []⟩))
    ∧ ∃ m1, do_task "a".toList ⟨[⟨"a".toList, false⟩], {"a".toList}, false, none, []⟩ = some m1 :=
  ⟨(C11_do_is_idempotent "a".toList ⟨[⟨"a".toList, false⟩], {"a".toList}, false, none, []⟩).1
      ⟨[⟨"a".toList, true⟩], {"a".toList}, false, some "a\n1\n".toList, []⟩ (by decide),
   (C11_do_is_idempotent "a".toList ⟨[⟨"a".toList, false⟩], {"a".toList}, false, none, []⟩).2
      ⟨by decide, by decide⟩⟩

/-- C12: for every list of lines the loop of `init`, started on the empty
store, gives the tasks of the reference definition (complete pairs in order,
name from the first line, done when the second is exactly `1`, first pair of
each name only, trailing single line dropped) and the set of their names; so
does `init` on a file, with the lines `getline` reads from it; an absent file
and an empty file give the empty store. -/
theorem C12_load_equals_reference (lines : List Str) (contents : Str) :
    ((lines.foldl init_step ⟨0, [], false, ∅, []⟩).tasks = load_reference lines
      ∧ (lines.foldl init_step ⟨0, [], false, ∅, []⟩).memo_name
          = ((load_reference lines).map Task.get_name).toFinset)
    ∧ ((init (fresh (some contents))).tasks = load_reference (getlines contents)
      ∧ (init (fresh (some contents))).memo_name
          = ((load_reference (getlines contents)).map Task.get_name).toFinset)
    ∧ ((init (fresh none)).tasks = [] ∧ (init (fresh none)).memo_name = ∅)
    ∧ ((init (fresh (some []))).tasks = [] ∧ (init (fresh (some []))).memo_name = ∅) := by
  have hloop : ∀ l : List Str,
      (l.foldl init_step ⟨0, [], false, ∅, []⟩).tasks = load_reference l
      ∧ (l.foldl init_step ⟨0, [], false, ∅, []⟩).memo_name
          = ((load_reference l).map Task.get_name).toFinset := by
    intro l
    have h := init_loop_reference l ⟨0, [], false, ∅, []⟩ rfl
    refine ⟨?_, ?_⟩
    · rw [h.1]
      simp
    · rw [h.2, load_reference, names_keep_first_of_name]
      simp
  exact ⟨hloop lines, hloop (getlines contents), ⟨rfl, rfl⟩, ⟨rfl, rfl⟩⟩

/-- C13 fails as stated: the file that holds the undone tasks `a` and `b`, each
followed by a blank line, loads as three tasks named `a`, the empty name and `0`. -/
theorem C13_blank_line_after_each_record :
    file_text_blank [⟨"a".toList, false⟩, ⟨"b".toList, false⟩] = "a\n0\n\nb\n0\n\n".toList
    ∧ (init (fresh (some (file_text_blank [⟨"a".toList, false⟩, ⟨"b".toList, false⟩])))).tasks
      = [⟨"a".toList, false⟩, ⟨[], false⟩, ⟨"0".toList, false⟩]
    ∧ (init (fresh (some (file_text_blank [⟨"a".toList, false⟩, ⟨"b".toList, false⟩])))).tasks
      ≠ [⟨"a".toList, false⟩, ⟨"b".toList, false⟩] := by
  refine ⟨by decide, by decide, by decide⟩

/-- C13, amended: load tolerates one blank line after the last record: for
every task list with pairwise distinct names without newline, the text
`update_file` writes followed by an empty line loads as that list, with the
set of its names.  With a blank line after each record the list loads as
itself when it has at most one task, and, the names being non-empty, does not
when it has two or more. -/
theorem C13_blank_line_after_last_record (tasks : List Task)
    (hnd : (tasks.map Task.get_name).Nodup)
    (hnl : ∀ t ∈ tasks, '\n' ∉ t.get_name) :
    ((init (fresh (some (file_text tasks ++ ['\n'])))).tasks = tasks
      ∧ (init (fresh (some (file_text tasks ++ ['\n'])))).memo_name
          = (tasks.map Task.get_name).toFinset)
    ∧ (tasks.length ≤ 1 → (init (fresh (some (file_text_blank tasks)))).tasks = tasks)
    ∧ ((∀ t ∈ tasks, t.get_name ≠ []) → 2 ≤ tasks.length →
        (init (fresh (some (file_text_blank tasks)))).tasks ≠ tasks) := by
  have hmain : (init (fresh (some (file_text tasks ++ ['\n'])))).tasks = tasks
      ∧ (init (fresh (some (file_text tasks ++ ['\n'])))).memo_name
          = (tasks.map Task.get_name).toFinset := by
    obtain ⟨st1, h1, h2, h3, h4, h5⟩ := load_file_text_append tasks ['\n'] hnd hnl
    have hl : getlines ['\n'] = [[]] := by decide
    rw [h4, h5, hl]
    simp only [List.foldl_cons, List.foldl_nil, init_step_first st1 [] h1]
    exact ⟨h2, h3⟩
  refine ⟨hmain, ?_, ?_⟩
  · intro hlen
    have hshape : file_text_blank tasks = file_text tasks ++ ['\n'] ∨ tasks = [] := by
      match tasks, hlen with
      | [], _ => exact Or.inr rfl
      | [t], _ => exact Or.inl (by simp [file_text_blank, file_text])
    rcases hshape with h | h
    · rw [h]
      exact hmain.1
    · subst h
      rfl
  · intro hne hlen
    match tasks, hlen, hne, hnl with
    | t1 :: t2 :: rest, _, hne, hnl =>
      obtain ⟨flag, x, hload⟩ := load_blank_two t1 t2 rest
        (hne t1 (List.mem_cons_self _ _)) (hnl t1 (List.mem_cons_self _ _))
        (hnl t2 (List.mem_cons_of_mem _ (List.mem_cons_self _ _)))
      rw [hload]
      intro heq
      have h2 : (⟨[], flag⟩ : Task) = t2 :=
        List.head_eq_of_cons_eq (List.tail_eq_of_cons_eq heq)
      exact hne t2 (List.mem_cons_of_mem _ (List.mem_cons_self _ _)) (by rw [← h2]; rfl)

/-- C13 amended, on the list of the done task `a` and on the list `a`, `b`. -/
theorem C13_blank_line_witness :
    ((init (fresh (some (file_text [⟨"a".toList, true⟩] ++ ['\n'])))).tasks
        = [⟨"a".toList, true⟩]
      ∧ (init (fresh (some (file_text [⟨"a".toList, true⟩] ++ ['\n'])))).memo_name
          = ([⟨"a".toList, true⟩].map Task.get_name).toFinset)
    ∧ (init (fresh (some (file_text_blank [⟨"a".toList, true⟩])))).tasks
        = [⟨"a".toList, true⟩]
    ∧ (init (fresh (some (file_text_blank [⟨"a".toList, true⟩, ⟨"b".toList, false⟩])))).tasks
        ≠ [⟨"a".toList, true⟩, ⟨"b".toList, false⟩] :=
  ⟨(C13_blank_line_after_last_record [⟨"a".toList, true⟩] (by decide) (by decide)).1,
   (C13_blank_line_after_last_record [⟨"a".toList, true⟩] (by decide) (by decide)).2.1
     (by decide),
   (C13_blank_line_after_last_record [⟨"a".toList, true⟩, ⟨"b".toList, false⟩]
     (by decide) (by decide)).2.2 (by decide) (by decide)⟩

/-- C14: on every store that satisfies the uniqueness invariant,
`remove_task` with a known name deletes the task of that name, whatever the
argument would mean as a number; with an argument that is no known name but
the decimal text of an index `i` inside the list (`i` an `int`, at most
`2147483647`), it deletes the task at index `i`.  The other tasks stay as
they are, in order, and the name set loses the name of the deleted task. -/
theorem C14_rm_removes_resolved_target (m : Manage) (hinv : Inv m) (x : Str) :
    (x ∈ m.memo_name →
      ∃ (i : Nat) (t : Task) (m1 : Manage), m.tasks[i]? = some t ∧ t.get_name = x
        ∧ remove_task x m = some m1
        ∧ m1.tasks = m.tasks.eraseIdx i ∧ m1.memo_name = m.memo_name.erase x)
    ∧ (∀ i : Nat, i ≤ 2147483647 → x ∉ m.memo_name → x = nat_to_string i →
      i < m.tasks.length →
      ∃ (t : Task) (m1 : Manage), m.tasks[i]? = some t
        ∧ remove_task x m = some m1
        ∧ m1.tasks = m.tasks.eraseIdx i ∧ m1.memo_name = m.memo_name.erase t.get_name) := by
  constructor
  · intro hx
    have hmem : x ∈ m.tasks.map Task.get_name := by
      rw [hinv.2, List.mem_toFinset] at hx
      exact hx
    obtain ⟨i, t, hi, ht, hname, -⟩ := find_idx_task_of_mem x m.tasks hmem
    have hrun : remove_task x m = some (update_file ⟨m.tasks.eraseIdx i,
        m.memo_name.erase t.get_name, m.is_end, m.file, m.out⟩) := by
      rw [remove_task_of_known x m hx, hi]
      exact remove_at_of_getElem i t m ht
    refine ⟨i, t, _, ht, hname, hrun, rfl, ?_⟩
    simp only [update_file, hname]
  · intro i hint hx hxi hi
    have ht : m.tasks[i]? = some m.tasks[i] := List.getElem?_eq_getElem hi
    have hparse : parse_int x = (i : Int) := by
      rw [hxi]
      exact parse_int_nat_to_string i hint
    have hrun : remove_task x m = some (update_file ⟨m.tasks.eraseIdx i,
        m.memo_name.erase m.tasks[i].get_name, m.is_end, m.file, m.out⟩) := by
      unfold remove_task
      simp only
      rw [if_neg hx, if_neg (by rw [hxi]; exact nat_to_string_not_option i), hparse,
        if_neg (by omega)]
      exact remove_at_of_getElem i _ m ht
    exact ⟨m.tasks[i], _, ht, hrun, rfl, rfl⟩

/-- C14, on the store of the tasks named `1` and `b`: `rm 1` deletes the task
named `1` at index 0, not the task at index 1; and on the store `a`, `b`,
where `1` is no name, `rm 1` deletes the task at index 1. -/
theorem C14_rm_removes_resolved_target_witness :
    (∃ (i : Nat) (t : Task) (m1 : Manage),
        [(⟨"1".toList, false⟩ : Task), ⟨"b".toList, true⟩][i]? = some t
        ∧ t.get_name = "1".toList
        ∧ remove_task "1".toList
            ⟨[⟨"1".toList, false⟩, ⟨"b".toList, true⟩], {"b".toList, "1".toList}, false,
              none, []⟩ = some m1
        ∧ m1.tasks = [(⟨"1".toList, false⟩ : Task), ⟨"b".toList, true⟩].eraseIdx i
        ∧ m1.memo_name = ({"b".toList, "1".toList} : Finset Str).erase "1".toList)
    ∧ (∃ (t : Task) (m1 : Manage),
        [(⟨"a".toList, false⟩ : Task), ⟨"b".toList, true⟩][1]? = some t
        ∧ remove_task "1".toList
            ⟨[⟨"a".toList, false⟩, ⟨"b".toList, true⟩], {"b".toList, "a".toList}, false,
              none, []⟩ = some m1
        ∧ m1.tasks = [(⟨"a".toList, false⟩ : Task), ⟨"b".toList, true⟩].eraseIdx 1
        ∧ m1.memo_name = ({"b".toList, "a".toList} : Finset Str).erase t.get_name) :=
  ⟨(C14_rm_removes_resolved_target
      ⟨[⟨"1".toList, false⟩, ⟨"b".toList, true⟩], {"b".toList, "1".toList}, false, none, []⟩
      ⟨by decide, by decide⟩ "1".toList).1 (by decide),
   (C14_rm_removes_resolved_target
      ⟨[⟨"a".toList, false⟩, ⟨"b".toList, true⟩], {"b".toList, "a".toList}, false, none, []⟩
      ⟨by decide, by decide⟩ "1".toList).2 1 (by decide) (by decide) (by decide) (by decide)⟩

/-- C15 fails as stated: on the store of the undone tasks `a` and `b` the
arguments `1x` and `+1` are no names, no option and no string of digits, yet
`remove_task` prints no error and deletes the task at index 1. -/
theorem C15_rm_argument_with_digit_prefix :
    remove_task "1x".toList
        ⟨[⟨"a".toList, false⟩, ⟨"b".toList, false⟩], {"b".toList, "a".toList}, false,
          some "a\n0\nb\n0\n".toList, []⟩
      = some ⟨[⟨"a".toList, false⟩], {"a".toList}, false, some "a\n0\n".toList, []⟩
    ∧ remove_task "+1".toList
        ⟨[⟨"a".toList, false⟩, ⟨"b".toList, false⟩], {"b".toList, "a".toList}, false,
          some "a\n0\nb\n0\n".toList, []⟩
      = some ⟨[⟨"a".toList, false⟩], {"a".toList}, false, some "a\n0\n".toList, []⟩ := by
  constructor <;> decide

/-- C15, amended: for every store and every `rm` argument that is no known
name and neither `-d` nor `-r`: when `parse_int` of the argument is not an
index inside the list, `remove_task` writes the error
`Invalid id_task or name_task or option` and leaves tasks, name set and file
as they are; when `parse_int` gives an index inside the list (as it does for
an argument that merely begins with its digits), the task at that index is
removed. -/
theorem C15_rm_unknown_target (m : Manage) (x : Str)
    (hx : x ∉ m.memo_name) (hopt : ¬ (x = "-d".toList ∨ x = "-r".toList)) :
    ((parse_int x < 0 ∨ parse_int x ≥ (m.tasks.length : Int)) →
      ∃ m1, remove_task x m = some m1
        ∧ m1.tasks = m.tasks ∧ m1.memo_name = m.memo_name ∧ m1.file = m.file
        ∧ m1.out = m.out
            ++ colored_text Color.red false true "Invalid id_task or name_task or option".toList)
    ∧ (¬ (parse_int x < 0 ∨ parse_int x ≥ (m.tasks.length : Int)) →
      remove_task x m = remove_at (parse_int x) m) := by
  constructor
  · intro h
    refine ⟨print_error "Invalid id_task or name_task or option".toList m, ?_,
      rfl, rfl, rfl, rfl⟩
    unfold remove_task
    simp only
    rw [if_neg hx, if_neg hopt, if_pos h]
  · intro h
    unfold remove_task
    simp only
    rw [if_neg hx, if_neg hopt, if_neg h]

/-- C15 amended, on the store of the undone tasks `a`, `b`: `rm abc` fails,
`rm 1x` removes the task at index 1. -/
theorem C15_rm_unknown_target_witness :
    (∃ m1, remove_task "abc".toList
        ⟨[⟨"a".toList, false⟩, ⟨"b".toList, false⟩], {"b".toList, "a".toList}, false,
          some "a\n0\nb\n0\n".toList, []⟩ = some m1
      ∧ m1.tasks = [⟨"a".toList, false⟩, ⟨"b".toList, false⟩]
      ∧ m1.memo_name = {"b".toList, "a".toList}
      ∧ m1.file = some "a\n0\nb\n0\n".toList
      ∧ m1.out = []
          ++ colored_text Color.red false true "Invalid id_task or name_task or option".toList)
    ∧ remove_task "1x".toList
        ⟨[⟨"a".toList, false⟩, ⟨"b".toList, false⟩], {"b".toList, "a".toList}, false,
          some "a\n0\nb\n0\n".toList, []⟩
      = remove_at (parse_int "1x".toList)
        ⟨[⟨"a".toList, false⟩, ⟨"b".toList, false⟩], {"b".toList, "a".toList}, false,
          some "a\n0\nb\n0\n".toList, []⟩ :=
  ⟨(C15_rm_unknown_target
      ⟨[⟨"a".toList, false⟩, ⟨"b".toList, false⟩], {"b".toList, "a".toList}, false,
        some "a\n0\nb\n0\n".toList, []⟩ "abc".toList (by decide) (by decide)).1 (by decide),
   (C15_rm_unknown_target
      ⟨[⟨"a".toList, false⟩, ⟨"b".toList, false⟩], {"b".toList, "a".toList}, false,
        some "a\n0\nb\n0\n".toList, []⟩ "1x".toList (by decide) (by decide)).2 (by decide)⟩

/-- C16 fails as stated: on the empty list `print_task` writes
`All tasks done :)` and no stats line. -/
theorem C16_empty_list_prints_all_done :
    (print_task ⟨[], ∅, false, none, []⟩).out
      = "\x1b[1;32mAll tasks done :)\x1b[0m\n".toList
    ∧ (print_task ⟨[], ∅, false, none, []⟩).out ≠ stats_text 0 0 := by
  constructor <;> decide

/-- C16, amended: `print_task` writes the task lines followed by
`All tasks done :)` if and only if every task of the list is done, which the
empty list satisfies; in every other case it writes the task lines followed by
the stats line with the number of undone and the number of done tasks.  Tasks,
name set and file stay as they are. -/
theorem C16_print_task_summary (m : Manage) :
    ((print_task m).out = m.out ++ task_lines m.tasks ++ all_done_text
        ↔ ∀ t ∈ m.tasks, t.is_done = true)
    ∧ (¬ (∀ t ∈ m.tasks, t.is_done = true) →
        (print_task m).out = m.out ++ task_lines m.tasks
          ++ stats_text (m.tasks.countP (fun t => !t.is_done))
              (m.tasks.countP (fun t => t.is_done)))
    ∧ (print_task m).tasks = m.tasks ∧ (print_task m).memo_name = m.memo_name
    ∧ (print_task m).file = m.file := by
  have hout := print_task_out m
  have hundone : m.tasks.length - m.tasks.countP (fun t => t.is_done)
      = m.tasks.countP (fun t => !t.is_done) := by
    have := List.length_eq_countP_add_countP (fun t : Task => t.is_done) m.tasks
    simp only [Bool.not_eq_true] at this
    have h2 : m.tasks.countP (fun t => !t.is_done)
        = m.tasks.countP (fun t => decide (t.is_done = false)) := by
      congr 1
      funext t
      cases t.is_done <;> rfl
    omega
  refine ⟨?_, ?_, ?_⟩
  · constructor
    · intro h
      by_contra hall
      rw [hout, if_neg (fun e => hall ((count_done_eq_length_iff _).mp e))] at h
      exact stats_text_ne_all_done _ _ (List.append_cancel_left h)
    · intro hall
      rw [hout, if_pos ((count_done_eq_length_iff _).mpr hall)]
  · intro hall
    rw [hout, if_neg (fun e => hall ((count_done_eq_length_iff _).mp e)), hundone]
  · unfold print_task
    simp only
    split <;> exact ⟨rfl, rfl, rfl⟩

/-- C16 amended, on the list of the undone task `a` and the done task `b`. -/
theorem C16_print_task_summary_witness :
    (print_task ⟨[⟨"a".toList, false⟩, ⟨"b".toList, true⟩], ∅, false, none, []⟩).out
      = [] ++ task_lines [⟨"a".toList, false⟩, ⟨"b".toList, true⟩]
          ++ stats_text 1 1 :=
  (C16_print_task_summary ⟨[⟨"a".toList, false⟩, ⟨"b".toList, true⟩], ∅, false, none, []⟩).2.1
    (by decide)

/-- C17: for every sequence of command lines that `process_command` can read a
first token from, started on the empty store next to an empty or missing file,
after each command the run has a state whose file contents are the
serialization of the current task list in its current order. -/
theorem C17_file_matches_after_every_command (S : StdSort) (cmds : List Str) (m0 : Manage)
    (h0 : m0.tasks = [] ∧ m0.memo_name = ∅ ∧ (m0.file = none ∨ m0.file = some []))
    (hcmds : ∀ c ∈ cmds, split (to_lowercase c) ≠ []) (k : Nat) :
    ∃ m, process_commands S (cmds.take k) m0 = some m
      ∧ file_contents m = serialization_reference m.tasks := by
  have hinv0 : Inv m0 := by
    unfold Inv
    rw [h0.1, h0.2.1]
    exact ⟨List.nodup_nil, rfl⟩
  have hsaved0 : Saved m0 := by
    unfold Saved file_contents
    rw [h0.1]
    rcases h0.2.2 with e | e <;> rw [e] <;> rfl
  obtain ⟨m, hm, -⟩ := inv_process_commands S (cmds.take k) hinv0
    (fun c hc => hcmds c (List.mem_of_mem_take hc))
  refine ⟨m, hm, ?_⟩
  rw [← file_text_eq_reference]
  exact saved_process_commands S _ hsaved0 hm

/-- C17, on the run `add a`, `add b`, `do a`, `sort 1`, `rm 0`, `ls`: after the
fifth command the list holds the undone task `b` and the file holds the two
lines `b` and `0`. -/
theorem C17_file_matches_witness :
    (∃ m, process_commands insertionStdSort
        (["add a".toList, "add b".toList, "do a".toList, "sort 1".toList, "rm 0".toList,
          "ls".toList].take 5) (fresh none) = some m
      ∧ file_contents m = serialization_reference m.tasks)
    ∧ (process_commands insertionStdSort
        (["add a".toList, "add b".toList, "do a".toList, "sort 1".toList, "rm 0".toList,
          "ls".toList].take 5) (fresh none)).map file_contents = some "b\n0\n".toList
    ∧ serialization_reference [⟨"a".toList, true⟩, ⟨"b".toList, false⟩]
        = "a\n1\nb\n0\n".toList :=
  ⟨C17_file_matches_after_every_command insertionStdSort
    ["add a".toList, "add b".toList, "do a".toList, "sort 1".toList, "rm 0".toList,
      "ls".toList]
    (fresh none) ⟨rfl, rfl, Or.inl rfl⟩ (by decide) 5, by decide, by decide⟩

/-- C18: for every task list with pairwise distinct names without newline and
every prefix of the text `update_file` writes for it, `init` on that prefix
loads the first `k` tasks of the list, for some `k`, with their names, flags
and order; so every loaded task is a task of the list. -/
theorem C18_partial_file_loads_a_prefix (tasks : List Task) (p : Str)
    (hnd : (tasks.map Task.get_name).Nodup)
    (hnl : ∀ t ∈ tasks, '\n' ∉ t.get_name)
    (hp : p <+: file_text tasks) :
    ∃ k, k ≤ tasks.length
      ∧ (init (fresh (some p))).tasks = tasks.take k
      ∧ ∀ t ∈ (init (fresh (some p))).tasks, t ∈ tasks := by
  obtain ⟨k, hk, hres⟩ := init_loop_prefix tasks ⟨0, [], false, ∅, []⟩ p rfl hnd
    (fun _ _ => Finset.not_mem_empty _) hnl hp
  have htasks : (init (fresh (some p))).tasks = tasks.take k := by
    show ((getlines p).foldl init_step ⟨0, [], false, ∅, []⟩).tasks = _
    rw [hres]
    rfl
  refine ⟨k, hk, htasks, ?_⟩
  intro t ht
  rw [htasks] at ht
  exact List.mem_of_mem_take ht

/-- C18, on the list `ab` (done), `cd` (undone) and the file cut inside the
second name: the first task is loaded. -/
theorem C18_partial_file_witness :
    ∃ k, k ≤ [(⟨"ab".toList, true⟩ : Task), ⟨"cd".toList, false⟩].length
      ∧ (init (fresh (some "ab\n1\nc".toList))).tasks
          = [(⟨"ab".toList, true⟩ : Task), ⟨"cd".toList, false⟩].take k
      ∧ ∀ t ∈ (init (fresh (some "ab\n1\nc".toList))).tasks,
          t ∈ [(⟨"ab".toList, true⟩ : Task), ⟨"cd".toList, false⟩] :=
  C18_partial_file_loads_a_prefix [⟨"ab".toList, true⟩, ⟨"cd".toList, false⟩] "ab\n1\nc".toList
    (by decide) (by decide) (by decide)

/-- C19: for every command line `split` returns the tokens of the reference
definition, the maximal runs of non-space characters in order, so that every
token is non-empty and holds no space; and the argument string
`process_command` builds is the tokens after the first joined by single
spaces: it does not begin or end with a space and has no two spaces in a row. -/
theorem C19_tokens_and_argument (command : Str) :
    split command = tokens_reference command
    ∧ (∀ t ∈ split command, t ≠ [] ∧ ' ' ∉ t)
    ∧ join_rest (split command).tail = [' '].intercalate (split command).tail
    ∧ (join_rest (split command).tail).head? ≠ some ' '
    ∧ (join_rest (split command).tail).getLast? ≠ some ' '
    ∧ no_double_space (join_rest (split command).tail) := by
  have htok := token_of_split command
  have htail : ∀ t ∈ (split command).tail, t ≠ [] ∧ ' ' ∉ t :=
    fun t ht => htok t (List.mem_of_mem_tail ht)
  refine ⟨split_eq_reference command, htok, join_rest_eq_intercalate _, ?_⟩
  rw [join_rest_eq_intercalate]
  by_cases hnil : (split command).tail = []
  · rw [hnil]
    exact ⟨by simp [List.intercalate], by simp [List.intercalate], List.chain'_nil⟩
  · exact (intercalate_tokens _ hnil htail).2

/-- C20, the code on the line that holds one space: the line is not empty, so
the read loop of `run` hands it on; `split` returns no token for it and
`process_command` reads `part[0]` of an empty vector. -/
theorem C20_line_of_spaces_has_no_token :
    " ".toList ≠ []
    ∧ split (to_lowercase " ".toList) = []
    ∧ process_command insertionStdSort " ".toList (fresh none) = none
    ∧ run insertionStdSort [" ".toList] true (fresh none) = RunResult.undefined
    ∧ run insertionStdSort [" ".toList] false (fresh none) = RunResult.undefined := by
  refine ⟨by decide, by decide, by decide, rfl, rfl⟩

end Todo
